import Mathlib

/-!
Verification of the retrieval core of the ai-support-platform repository.

The development shallowly embeds `src/rag/chunker.py` (`DocumentChunker.chunk_text`),
`src/rag/retriever.py` (`RAGRetriever.build_index` / `save_index` / `load_index` /
`retrieve`) and `src/rag/service.py` (`FallbackRetriever.retrieve`) into Lean.

Python strings are modelled as `List Char`; Python text operations (`str.strip`,
`str.split`, `re.split(r'(?<=[.!?])\s+', text)`, slicing `s[-n:]`, `str.lower`,
substring `in`) are modelled by executable functions below.  Floating point scores
are carried opaquely as `ℚ` (retriever distances, produced by an abstract FAISS
search collaborator) or `ℕ` (fallback keyword-overlap counts); no claim under
study depends on float arithmetic.  External collaborators (sentence-transformer
encoder, FAISS search) appear as explicit function parameters, mirroring the
spec's capability-interface treatment.
-/

namespace AISupport

/-! ### Basic character and string-as-list helpers -/

/-- Python whitespace class `\s` restricted to the ASCII characters it contains
(the character classes used by `str.split`, `str.strip` and the sentence regex
agree on these). -/
def pyIsSpace (c : Char) : Bool :=
  c = ' ' || c = '\t' || c = '\n' || c = '\r' || c = '\x0b' || c = '\x0c'

/-- The sentence-terminating punctuation class `[.!?]` of
`re.split(r'(?<=[.!?])\s+', text)` in `chunk_text`. -/
def isPunct (c : Char) : Bool :=
  c = '.' || c = '!' || c = '?'

/-- `str.lower` for the characters occurring in this code base: ASCII letters
plus the Polish uppercase letters (the knowledge-base texts contain no other
uppercase letters). -/
def pyLower (c : Char) : Char :=
  if c = 'Ł' then 'ł'
  else if c = 'Ś' then 'ś'
  else if c = 'Ż' then 'ż'
  else if c = 'Ź' then 'ź'
  else if c = 'Ó' then 'ó'
  else if c = 'Ą' then 'ą'
  else if c = 'Ę' then 'ę'
  else if c = 'Ć' then 'ć'
  else if c = 'Ń' then 'ń'
  else c.toLower

/-- Lowercase a whole string (`s.lower()`). -/
def lowerL (l : List Char) : List Char := l.map pyLower

/-- Does the string contain a non-whitespace character? -/
def hasNS (l : List Char) : Bool := l.any (fun c => !pyIsSpace c)

/-- `str.lstrip()` (drop leading whitespace). -/
def lstripL (l : List Char) : List Char := l.dropWhile pyIsSpace

/-- `str.rstrip()` (drop trailing whitespace). -/
def rstripL (l : List Char) : List Char := (l.reverse.dropWhile pyIsSpace).reverse

/-- `str.strip()`. -/
def stripL (l : List Char) : List Char := rstripL (lstripL l)

/-- Python slice `s[-n:]` for `n > 0`: the trailing `min n (length s)` characters. -/
def takeLast (n : Nat) (l : List Char) : List Char := l.drop (l.length - n)

/-- `pat` is a prefix of `l` (Boolean). -/
def startsWithL : List Char → List Char → Bool
  | [], _ => true
  | _ :: _, [] => false
  | a :: as, b :: bs => a = b && startsWithL as bs

/-- Python substring test `pat in l` (Boolean). -/
def containsL : List Char → List Char → Bool
  | pat, [] => pat.isEmpty
  | pat, c :: rest => startsWithL pat (c :: rest) || containsL pat rest

/-- Last character is whitespace. -/
def endsSpace (l : List Char) : Bool :=
  match l.getLast? with
  | some c => pyIsSpace c
  | none => false

/-- Last character is sentence punctuation. -/
def endsPunct (l : List Char) : Bool :=
  match l.getLast? with
  | some c => isPunct c
  | none => false

/-- The string is empty or starts with a non-whitespace character. -/
def headOK (l : List Char) : Bool :=
  match l.head? with
  | some c => !pyIsSpace c
  | none => true

/-! ### Sentence splitting: `re.split(r'(?<=[.!?])\s+', text)`

`sentGo l acc skp` scans `l` left to right.  `acc` holds the current sentence
reversed; `skp = true` means we are inside a separator (a maximal whitespace
run preceded by `[.!?]`), during which `acc = []`.  A separator at end of input
yields a trailing empty sentence, exactly as `re.split` does. -/

def headPunct (acc : List Char) : Bool :=
  match acc with
  | c :: _ => isPunct c
  | [] => false

def sentGo : List Char → List Char → Bool → List (List Char)
  | [], acc, _ => [acc.reverse]
  | c :: rest, acc, skp =>
    if skp then
      if pyIsSpace c then sentGo rest acc true
      else sentGo rest [c] false
    else
      if pyIsSpace c && headPunct acc then acc.reverse :: sentGo rest [] true
      else sentGo rest (c :: acc) false

def splitSentences (l : List Char) : List (List Char) := sentGo l [] false

/-! ### Word splitting: Python `str.split()` (split on whitespace, drop empties) -/

def wordsGo : List Char → List Char → List (List Char)
  | [], cur => if cur.isEmpty then [] else [cur.reverse]
  | c :: rest, cur =>
    if pyIsSpace c then
      if cur.isEmpty then wordsGo rest [] else cur.reverse :: wordsGo rest []
    else wordsGo rest (c :: cur)

def pyWords (l : List Char) : List (List Char) := wordsGo l []

/-! ### The chunker (`DocumentChunker.chunk_text`, src/rag/chunker.py lines 25-109) -/

/-- Chunk metadata: a string-keyed dictionary with string values (the fields
used by the retrieval path are `source`, `category`, `section`). -/
abbrev Md := List (String × List Char)

structure ChunkerCfg where
  chunk_size : Nat
  chunk_overlap : Nat
  deriving DecidableEq, Repr

/-- A chunk as produced by `chunk_text`: `{"text": ..., "metadata": ...}`. -/
structure PChunk where
  text : List Char
  metadata : Md
  deriving DecidableEq, Repr

/-- The inner word-packing loop of `chunk_text` (lines 61-77): splits one
over-long sentence by words.  Returns the updated chunk list and the final
`temp_chunk`. -/
def wordLoopU (cfg : ChunkerCfg) (md : Md) :
    List (List Char) → List Char → List PChunk → List PChunk × List Char
  | [], temp, acc => (acc, temp)
  | w :: ws, temp, acc =>
    if temp.length + w.length + 1 ≤ cfg.chunk_size then
      wordLoopU cfg md ws (temp ++ w ++ [' ']) acc
    else
      let acc' := if temp = [] then acc else acc ++ [⟨stripL temp, md⟩]
      wordLoopU cfg md ws (w ++ [' ']) acc'

/-- The main sentence loop of `chunk_text` (lines 46-107).  `cur` is
`current_chunk`, `clen` is `current_length`, `acc` is `chunks`. -/
def mainLoopU (cfg : ChunkerCfg) (md : Md) :
    List (List Char) → List Char → Nat → List PChunk → List PChunk
  | [], cur, _, acc =>
    -- lines 102-107: final chunk, emitted only if its strip is non-empty
    if stripL cur = [] then acc else acc ++ [⟨stripL cur, md⟩]
  | s :: rest, cur, clen, acc =>
    if cfg.chunk_size < s.length then
      -- lines 50-78: sentence longer than chunk_size, word-split path
      let acc1 := if cur = [] then acc else acc ++ [⟨stripL cur, md⟩]
      let p := wordLoopU cfg md (pyWords s) [] acc1
      let acc3 := if p.2 = [] then p.1 else p.1 ++ [⟨stripL p.2, md⟩]
      mainLoopU cfg md rest [] 0 acc3
    else if clen + s.length ≤ cfg.chunk_size then
      -- lines 81-83: sentence fits in the running buffer
      mainLoopU cfg md rest (cur ++ s ++ [' ']) (clen + s.length + 1) acc
    else
      -- lines 84-100: flush buffer, then start a new one (with overlap seed)
      let acc1 := if cur = [] then acc else acc ++ [⟨stripL cur, md⟩]
      if 0 < cfg.chunk_overlap ∧ cur ≠ [] then
        let ov := takeLast cfg.chunk_overlap cur
        mainLoopU cfg md rest (ov ++ s ++ [' ']) (ov.length + s.length + 1) acc1
      else
        mainLoopU cfg md rest (s ++ [' ']) (s.length + 1) acc1

/-- `DocumentChunker.chunk_text` (src/rag/chunker.py lines 25-109). -/
def chunk_text (cfg : ChunkerCfg) (text : List Char) (md : Md) : List PChunk :=
  mainLoopU cfg md (splitSentences text) [] 0 []

/-! ### Instrumented chunker

Identical control flow to `chunk_text`, with two ghost provenance flags on each
chunk: `wordSplit` marks chunks emitted by the word-packing path of an
over-long sentence, and `seeded` marks chunks whose buffer was started with an
overlap seed (lines 92-97).  `chunkTextT_erase` below proves that erasing the
flags recovers `chunk_text` exactly; the flags only serve to state the overlap
property of §8 of the spec, which is scoped by chunk provenance. -/

structure TChunk where
  text : List Char
  metadata : Md
  wordSplit : Bool
  seeded : Bool
  deriving DecidableEq, Repr

def eraseT (t : TChunk) : PChunk := ⟨t.text, t.metadata⟩

def wordLoopT (cfg : ChunkerCfg) (md : Md) :
    List (List Char) → List Char → List TChunk → List TChunk × List Char
  | [], temp, acc => (acc, temp)
  | w :: ws, temp, acc =>
    if temp.length + w.length + 1 ≤ cfg.chunk_size then
      wordLoopT cfg md ws (temp ++ w ++ [' ']) acc
    else
      let acc' := if temp = [] then acc else acc ++ [⟨stripL temp, md, true, false⟩]
      wordLoopT cfg md ws (w ++ [' ']) acc'

def mainLoopT (cfg : ChunkerCfg) (md : Md) :
    List (List Char) → List Char → Nat → Bool → List TChunk → List TChunk
  | [], cur, _, sd, acc =>
    if stripL cur = [] then acc else acc ++ [⟨stripL cur, md, false, sd⟩]
  | s :: rest, cur, clen, sd, acc =>
    if cfg.chunk_size < s.length then
      let acc1 := if cur = [] then acc else acc ++ [⟨stripL cur, md, false, sd⟩]
      let p := wordLoopT cfg md (pyWords s) [] acc1
      let acc3 := if p.2 = [] then p.1 else p.1 ++ [⟨stripL p.2, md, true, false⟩]
      mainLoopT cfg md rest [] 0 false acc3
    else if clen + s.length ≤ cfg.chunk_size then
      mainLoopT cfg md rest (cur ++ s ++ [' ']) (clen + s.length + 1) sd acc
    else
      let acc1 := if cur = [] then acc else acc ++ [⟨stripL cur, md, false, sd⟩]
      if 0 < cfg.chunk_overlap ∧ cur ≠ [] then
        let ov := takeLast cfg.chunk_overlap cur
        mainLoopT cfg md rest (ov ++ s ++ [' ']) (ov.length + s.length + 1) true acc1
      else
        mainLoopT cfg md rest (s ++ [' ']) (s.length + 1) false acc1

def chunkTextT (cfg : ChunkerCfg) (text : List Char) (md : Md) : List TChunk :=
  mainLoopT cfg md (splitSentences text) [] 0 false []

/-! ### Specification predicates for the chunker claims -/

/-- Amended §8 bound: every chunk is non-empty, and every chunk is within
`chunk_size + chunk_overlap` unless it is a single whitespace-free word
(the word-splitting escape hatch for an indivisible over-long word). -/
def ChunkP (cfg : ChunkerCfg) (t : List Char) : Prop :=
  t ≠ [] ∧ (t.length ≤ cfg.chunk_size + cfg.chunk_overlap ∨ t.all (fun c => !pyIsSpace c))

/-- The overlap-seed text determined by the preceding chunk `c`: the trailing
`chunk_overlap` characters of `c.text` extended by the single buffer space,
left-stripped. -/
def seedOf (cfg : ChunkerCfg) (c : TChunk) : List Char :=
  lstripL (takeLast cfg.chunk_overlap (c.text ++ [' ']))

/-- Amended §8 overlap property over the instrumented output: whenever the
chunk at position `i+1` was seeded by the overlap path, it starts (up to its
own trailing-space normalisation) with the seed derived from chunk `i`. -/
def PairsOK (cfg : ChunkerCfg) (l : List TChunk) : Prop :=
  ∀ i c c', l.get? i = some c → l.get? (i + 1) = some c' → c'.seeded = true →
    startsWithL (seedOf cfg c) (c'.text ++ [' ']) = true

/-- Invariant of `temp_chunk` in the word loop: empty, or a space-terminated
buffer that either respects the size bound or consists of a single
whitespace-free word plus the trailing space. -/
def TInvP (cfg : ChunkerCfg) (temp : List Char) : Prop :=
  temp = [] ∨ (endsSpace temp = true ∧ hasNS temp = true ∧
    (temp.length ≤ cfg.chunk_size + 1 ∨
      ∃ w, temp = w ++ [' '] ∧ w ≠ [] ∧ w.all (fun c => !pyIsSpace c) = true))

/-- Structural decomposition of a non-empty sentence buffer: optional leading
whitespace, a core starting with a non-whitespace character and ending in
sentence punctuation, and the single trailing buffer space. -/
def SDecomp (cur : List Char) : Prop :=
  ∃ L c t, cur = L ++ (c :: t) ++ [' '] ∧ L.all pyIsSpace = true ∧
    pyIsSpace c = false ∧ endsPunct (c :: t) = true

/-- Link between the current (overlap-seeded) buffer and the chunk emitted
just before it was seeded: the seed derived from that chunk is a prefix of the
left-stripped buffer, and survives the final strip up to the trailing space. -/
def LinkP (cfg : ChunkerCfg) (cur : List Char) (acc : List TChunk) : Prop :=
  cur ≠ [] ∧ ∃ cl, acc.getLast? = some cl ∧
    startsWithL (seedOf cfg cl) (lstripL cur) = true ∧
    startsWithL (seedOf cfg cl) (stripL cur ++ [' ']) = true

/-! ### The retriever (`RAGRetriever`, src/rag/retriever.py)

The encoder (`SentenceTransformer.encode`) and the FAISS index search are
external collaborators; they are passed in as function parameters.  An
embedding vector is a list of rationals; a FAISS search result row is a list
of `(distance, position)` pairs (`distances[0]`, `indices[0]`), where positions
are machine integers (FAISS pads with `-1` when the index holds fewer vectors
than requested). -/

abbrev Vec := List ℚ

structure RState where
  index : Option (List Vec)
  chunks : List PChunk
  deriving DecidableEq, Repr

structure Persisted where
  pIndex : List Vec
  pChunks : List PChunk
  deriving DecidableEq, Repr

inductive BuildErr where
  | emptyCorpus
  | embedFailed
  deriving DecidableEq, Repr

inductive RetrieveErr where
  | indexNotBuilt
  | indexError
  deriving DecidableEq, Repr

inductive SaveErr where
  | noIndex
  deriving DecidableEq, Repr

/-- `self.index.ntotal` (0 when no index is loaded, as reported by the service). -/
def ntotal (st : RState) : Nat :=
  match st.index with
  | some ix => ix.length
  | none => 0

/-- Python truthiness of the `filter_category: Optional[str]` parameter. -/
def truthy : Option (List Char) → Bool
  | none => false
  | some s => !s.isEmpty

/-- `search_k = top_k * 3 if filter_category else top_k` (line 164). -/
def searchK (fc : Option (List Char)) (top_k : Nat) : Nat :=
  if truthy fc then top_k * 3 else top_k

/-- `chunk.get("metadata", {}).get("category", "")` (line 179), on our
already-extracted metadata dictionary. -/
def categoryOf (md : Md) : List Char :=
  (md.lookup "category").getD []

/-- Python list indexing `self.chunks[idx]` for an `int` index (negative
indices address from the end; out-of-range raises). -/
def pyGet (l : List PChunk) (i : Int) : Option PChunk :=
  if 0 ≤ i then l.get? i.toNat
  else if (-i).toNat ≤ l.length then l.get? (l.length - (-i).toNat) else none

/-- A retrieval result: a copied chunk with its `score` field (line 174-175). -/
structure RRes where
  text : List Char
  metadata : Md
  score : ℚ
  deriving DecidableEq, Repr

/-- The result-collection loop of `retrieve` (lines 170-188): walk candidates,
skip positions `≥ len(chunks)`, apply the truthy category filter, append until
`top_k` results are collected. -/
def collectLoop (chunks : List PChunk) (fc : Option (List Char)) (top_k : Nat) :
    List (ℚ × Int) → List RRes → Except RetrieveErr (List RRes)
  | [], results => .ok results
  | (d, idx) :: rest, results =>
    if idx < (chunks.length : Int) then
      match pyGet chunks idx with
      | none => .error .indexError
      | some chunk =>
        let keep : Bool :=
          match fc with
          | none => true
          | some s =>
            if s = [] then true
            else containsL (lowerL s) (lowerL (categoryOf chunk.metadata))
        if keep then
          let results2 := results ++ [⟨chunk.text, chunk.metadata, d⟩]
          if top_k ≤ results2.length then .ok results2
          else collectLoop chunks fc top_k rest results2
        else collectLoop chunks fc top_k rest results
    else collectLoop chunks fc top_k rest results

/-- The per-result obligation of the category filter: whenever a filter string
is supplied, the result's category metadata contains it case-insensitively
(trivially true for the empty filter string, which is a substring of
everything). -/
def ResOK (fc : Option (List Char)) (r : RRes) : Prop :=
  ∀ s, fc = some s → containsL (lowerL s) (lowerL (categoryOf r.metadata)) = true

/-- `RAGRetriever.retrieve` (lines 139-188). -/
def retrieve (encode : List Char → Vec)
    (srch : List Vec → Vec → Nat → List (ℚ × Int))
    (st : RState) (query : List Char) (top_k : Nat) (fc : Option (List Char)) :
    Except RetrieveErr (List RRes) :=
  match st.index with
  | none => .error .indexNotBuilt
  | some ix =>
    collectLoop st.chunks fc top_k (srch ix (encode query) (searchK fc top_k)) []

/-- `RAGRetriever.build_index` (lines 54-113).  `all_chunks` is the
concatenation of the chunker outputs over the supplied document collections
(the file loading and chunking of lines 66-88 happen before any state
mutation).  `encB` is the fallible batched embedding call of lines 99-103;
the returned state is the retriever's `(index, chunks)` pair after the call,
whether it succeeded or raised. -/
def build_index (encB : List (List Char) → Except Unit (List Vec))
    (st : RState) (all_chunks : List PChunk) : Except BuildErr Unit × RState :=
  if all_chunks = [] then
    -- lines 90-91: raise before any state mutation
    (.error .emptyCorpus, st)
  else
    -- line 93: `self.chunks = all_chunks` happens before embedding
    let st1 : RState := { st with chunks := all_chunks }
    match encB (all_chunks.map (fun c => c.text)) with
    | .error _ => (.error .embedFailed, st1)
    | .ok embs =>
      -- lines 105-110: fresh IndexFlatL2 populated with the embeddings
      (.ok (), { st1 with index := some embs })

/-- `RAGRetriever.save_index` (lines 115-126): writes the FAISS index blob and
the pickled chunk list as a pair (`faiss.write_index(None, ...)` raises). -/
def save_index (st : RState) : Except SaveErr Persisted :=
  match st.index with
  | none => .error .noIndex
  | some ix => .ok ⟨ix, st.chunks⟩

/-- `RAGRetriever.load_index` (lines 128-137): reads both artifacts and
installs them, with no validation of any kind. -/
def load_index (p : Persisted) : RState :=
  ⟨some p.pIndex, p.pChunks⟩

/-! ### The fallback retriever (`FallbackRetriever`, src/rag/service.py lines 72-162) -/

structure FDoc where
  text : List Char
  source : List Char
  category : List Char
  deriving DecidableEq, Repr

structure FRes where
  text : List Char
  source : List Char
  category : List Char
  score : Nat
  deriving DecidableEq, Repr

/-- The static knowledge base (service.py lines 79-115). -/
def knowledge_base : List FDoc :=
  [ ⟨("Masz 14 dni na zwrot produktu od daty otrzymania. Produkt musi być w oryginalnym opakowaniu, nieużywany. Koszt zwrotu pokrywa klient, chyba że produkt jest wadliwy.").data,
      ("Regulamin zwrotów").data, ("zwrot").data⟩,
    ⟨("Oferujemy następujące opcje dostawy: kurier (1-2 dni robocze, koszt 15 zł), Paczkomat InPost (1-2 dni robocze, koszt 12 zł), odbiór osobisty (następny dzień roboczy, darmowy). Darmowa dostawa przy zamówieniach powyżej 200 zł.").data,
      ("Polityka wysyłki").data, ("dostawa").data⟩,
    ⟨("Akceptujemy płatności: kartą płatniczą (Visa, Mastercard), przelewem bankowym, BLIK, płatności odroczone (PayU Pay Later). Płatność można dokonać podczas składania zamówienia.").data,
      ("Metody płatności").data, ("płatność").data⟩,
    ⟨("Status zamówienia można sprawdzić w zakładce 'Moje zamówienia' po zalogowaniu. Otrzymasz również powiadomienie email o każdej zmianie statusu. Po wysłaniu otrzymasz numer do śledzenia przesyłki.").data,
      ("FAQ: Status zamówienia").data, ("status").data⟩,
    ⟨("Dostępność produktów jest aktualizowana na bieżąco na stronie produktu. Jeśli produkt jest niedostępny, możesz zapisać się na powiadomienie o ponownej dostępności.").data,
      ("FAQ: Dostępność produktów").data, ("produkt").data⟩ ]

/-- Stable descending insertion: `x` goes before the first element whose score
is not greater, so equal scores keep their original order, exactly like
Python's stable `list.sort(key=..., reverse=True)`. -/
def insDesc (x : FRes) : List FRes → List FRes
  | [] => [x]
  | y :: ys => if x.score < y.score then y :: insDesc x ys else x :: y :: ys

def sortScoreDesc : List FRes → List FRes
  | [] => []
  | x :: xs => insDesc x (sortScoreDesc xs)

/-- `FallbackRetriever.retrieve` (service.py lines 117-142): score each entry
by `len(set(doc_words) & set(query_words))`, boost by 5 on an exact (truthy)
category match, stable-sort descending, return the first `top_k`. -/
def fallback_retrieve (query : List Char) (top_k : Nat) (fc : Option (List Char)) :
    List FRes :=
  let query_words := (lowerL query |> pyWords).dedup
  let results := knowledge_base.map (fun doc =>
    let doc_words := (lowerL doc.text |> pyWords).dedup
    let overlap := (doc_words.filter (fun w => decide (w ∈ query_words))).length
    let overlap := if truthy fc ∧ fc = some doc.category then overlap + 5 else overlap
    (⟨doc.text, doc.source, doc.category, overlap⟩ : FRes))
  (sortScoreDesc results).take top_k

/-- Spec-side scoring, phrased as in the spec: the number of distinct
whitespace tokens of the lowercased query that also occur among the whitespace
tokens of the lowercased entry text. -/
def sharedTokenCount (query text : List Char) : Nat :=
  ((pyWords (lowerL query)).dedup.filter (fun w => decide (w ∈ pyWords (lowerL text)))).length

/-- Spec-side fallback retrieval, phrased from the spec's words: token-overlap
score plus a fixed +5 boost when `filter_category` exactly equals the entry's
category, sorted descending, first `top_k` returned. -/
def fallbackRetrieveSpec (query : List Char) (top_k : Nat) (fc : Option (List Char)) :
    List FRes :=
  (sortScoreDesc (knowledge_base.map (fun doc =>
    (⟨doc.text, doc.source, doc.category,
      sharedTokenCount query doc.text + (if fc = some doc.category then 5 else 0)⟩ : FRes)))).take top_k

/-! ### Concrete instances used by witnesses -/

/-- A trivial embedder instance. -/
def encZero : List Char → Vec := fun _ => []

/-- A search collaborator honouring the FAISS length contract (pads with
position 0 here; positions and distances are opaque to the claims). -/
def srchPad : List Vec → Vec → Nat → List (ℚ × Int) :=
  fun _ _ n => List.replicate n ((0 : ℚ), (0 : Int))

/-- A batched embedding call that raises (e.g. model failure mid-build). -/
def encBFail : List (List Char) → Except Unit (List Vec) := fun _ => .error ()

/-- A batched embedding call that succeeds. -/
def encBOk : List (List Char) → Except Unit (List Vec) :=
  fun ts => .ok (ts.map (fun _ => []))

/-- A concrete chunk (from the §8 scenario corpus). -/
def chunkA : PChunk :=
  ⟨("Zwrot możliwy w 14 dni.").data,
    [("source", ("FAQ").data), ("category", ("zwrot").data)]⟩

/-- A second concrete chunk. -/
def chunkB : PChunk := ⟨("b").data, []⟩

/-- A retriever state holding one built generation. -/
def stA : RState := ⟨some [[1]], [chunkA]⟩

/-! ## Theorems -/

/-! ### C1: `build_index` atomicity -/

/-- C1 counterexample: `build_index` is not all-or-nothing.  Starting from the
built state `stA` and rebuilding over the chunk list `[chunkB]` with an
embedder that raises, the call fails, yet the retriever's state has changed:
the chunk sequence was already replaced (line 93 of retriever.py precedes the
embedding call), while the index still holds the previous generation — the two
are out of sync. -/
theorem build_index_not_atomic :
    (build_index encBFail stA [chunkB]).1 = .error .embedFailed ∧
    (build_index encBFail stA [chunkB]).2 ≠ stA ∧
    (build_index encBFail stA [chunkB]).2.index = stA.index ∧
    (build_index encBFail stA [chunkB]).2.chunks ≠ stA.chunks := by
  refine ⟨rfl, ?_, rfl, ?_⟩ <;> decide

/-- C1 (amended): `build_index` is atomic only up to the chunk assignment: an
empty-corpus failure leaves the state exactly as it was, but a failure of the
batched embedding call leaves the chunk sequence replaced by the new chunks
while the index keeps its previous generation; on success both are replaced. -/
theorem build_index_failure_states (encB : List (List Char) → Except Unit (List Vec))
    (st : RState) (ac : List PChunk) :
    ((build_index encB st ac).1 = .error .emptyCorpus →
      (build_index encB st ac).2 = st ∧ ac = []) ∧
    ((build_index encB st ac).1 = .error .embedFailed →
      (build_index encB st ac).2.index = st.index ∧ (build_index encB st ac).2.chunks = ac) ∧
    ((build_index encB st ac).1 = .ok () →
      (build_index encB st ac).2.chunks = ac ∧
      ∃ vs, encB (ac.map (fun c => c.text)) = .ok vs ∧
        (build_index encB st ac).2.index = some vs) := by
  unfold build_index
  by_cases hac : ac = []
  · simp [hac]
  · simp only [if_neg hac]
    cases henc : encB (ac.map (fun c => c.text)) with
    | error e => simp
    | ok vs => exact ⟨fun h => by simp at h, fun h => by simp at h,
        fun _ => ⟨rfl, vs, rfl, rfl⟩⟩

/-- Witness for `build_index_failure_states` at a concrete failing build. -/
theorem build_index_failure_states_witness :
    (build_index encBFail stA [chunkB]).1 = .error .embedFailed ∧
    ((build_index encBFail stA [chunkB]).2.index = stA.index ∧
      (build_index encBFail stA [chunkB]).2.chunks = [chunkB]) :=
  ⟨rfl, (build_index_failure_states encBFail stA [chunkB]).2.1 rfl⟩

/-! ### C2: `load` validation -/

/-- C2 counterexample: `load_index` performs no count validation and never
fails with a corrupt-state error.  Loading a persisted pair holding two
vectors but a single chunk yields a ready retriever (`index` present) whose
vector count (2) differs from its chunk count (1). -/
theorem load_index_no_validation :
    ((load_index ⟨[[0], [0]], [chunkB]⟩).index.isSome = true) ∧
    ntotal (load_index ⟨[[0], [0]], [chunkB]⟩) = 2 ∧
    (load_index ⟨[[0], [0]], [chunkB]⟩).chunks.length = 1 ∧
    ntotal (load_index ⟨[[0], [0]], [chunkB]⟩) ≠
      (load_index ⟨[[0], [0]], [chunkB]⟩).chunks.length := by
  refine ⟨rfl, rfl, rfl, ?_⟩ ; decide

/-- C2 (amended): `load_index` unconditionally installs whatever pair of
artifacts is on disk, with no relation enforced between the restored vector
count and chunk count: every count combination loads into a ready retriever. -/
theorem load_index_restores_any_pair (nv nc : Nat) :
    ∃ p : Persisted, p.pIndex.length = nv ∧ p.pChunks.length = nc ∧
      (load_index p).index = some p.pIndex ∧ (load_index p).chunks = p.pChunks ∧
      ntotal (load_index p) = nv ∧ (load_index p).chunks.length = nc := by
  refine ⟨⟨List.replicate nv [], List.replicate nc ⟨[], []⟩⟩, ?_, ?_, rfl, rfl, ?_, ?_⟩ <;>
    simp [load_index, ntotal]

/-! ### C6: empty corpus and unbuilt index -/

/-- C6: building over an empty corpus (zero chunks produced from every input)
fails with the empty-corpus error and leaves the state untouched, and
`retrieve` on a retriever with no index fails with the index-not-built
error. -/
theorem empty_corpus_and_unbuilt (encB : List (List Char) → Except Unit (List Vec))
    (enc : List Char → Vec) (srch : List Vec → Vec → Nat → List (ℚ × Int))
    (st : RState) (q : List Char) (k : Nat) (fc : Option (List Char))
    (h : st.index = none) :
    build_index encB st [] = (.error .emptyCorpus, st) ∧
    retrieve enc srch st q k fc = .error .indexNotBuilt := by
  constructor
  · simp [build_index]
  · unfold retrieve
    rw [h]

/-- Witness for `empty_corpus_and_unbuilt` on the freshly-constructed state. -/
theorem empty_corpus_and_unbuilt_witness :
    build_index encBOk ⟨none, []⟩ [] = (.error .emptyCorpus, ⟨none, []⟩) ∧
    retrieve encZero srchPad ⟨none, []⟩ ("Jak zwrócić produkt?").data 1 none =
      .error .indexNotBuilt :=
  empty_corpus_and_unbuilt encBOk encZero srchPad ⟨none, []⟩ _ 1 none rfl

/-! ### C7: save/load round-trip -/

/-- C7: for a retriever with built state, `save` succeeds and loading what it
wrote yields a retriever whose `retrieve` output (chunks, order and scores)
agrees with the pre-save retriever on every query, every `top_k` and every
category filter. -/
theorem save_load_roundtrip (enc : List Char → Vec)
    (srch : List Vec → Vec → Nat → List (ℚ × Int))
    (st : RState) (ix : List Vec) (h : st.index = some ix) :
    ∃ p, save_index st = .ok p ∧
      ∀ q k fc, retrieve enc srch (load_index p) q k fc = retrieve enc srch st q k fc := by
  refine ⟨⟨ix, st.chunks⟩, ?_, ?_⟩
  · unfold save_index
    rw [h]
  · intro q k fc
    have hst : load_index ⟨ix, st.chunks⟩ = st := by
      cases st with
      | mk i c => cases h; rfl
    rw [hst]

/-- Witness for `save_load_roundtrip` on the concrete built state `stA`. -/
theorem save_load_roundtrip_witness :
    ∃ p, save_index stA = .ok p ∧
      ∀ q k fc, retrieve encZero srchPad (load_index p) q k fc =
        retrieve encZero srchPad stA q k fc :=
  save_load_roundtrip encZero srchPad stA [[1]] rfl

/-! ### C10: empty-string filter behaves like no filter -/

/-- The collection loop ignores an empty-string category filter exactly as it
ignores an absent one. -/
theorem collectLoop_empty_filter (chunks : List PChunk) (k : Nat) :
    ∀ cands results,
      collectLoop chunks (some []) k cands results =
        collectLoop chunks none k cands results := by
  intro cands
  induction cands with
  | nil => intro results; rfl
  | cons hd tl ih =>
    intro results
    obtain ⟨d, idx⟩ := hd
    simp [collectLoop, ih]

/-- C10: calling `retrieve` with `filter_category=""` is identical to calling
it with `filter_category=None`: the same `top_k` candidates are requested from
the index (no 3x over-fetch, since `""` is falsy) and no category filtering is
applied, so results and scores coincide. -/
theorem retrieve_empty_filter_eq_none (enc : List Char → Vec)
    (srch : List Vec → Vec → Nat → List (ℚ × Int))
    (st : RState) (q : List Char) (k : Nat) :
    searchK (some ([] : List Char)) k = k ∧
    retrieve enc srch st q k (some []) = retrieve enc srch st q k none := by
  constructor
  · rfl
  · unfold retrieve
    cases st.index with
    | none => rfl
    | some ix => exact collectLoop_empty_filter _ _ _ []

/-! ### C5: `retrieve` result bound and category filter -/

/-- The empty pattern is a substring of every string. -/
theorem containsL_nil : ∀ l : List Char, containsL [] l = true
  | [] => rfl
  | _ :: _ => by simp [containsL, startsWithL]

/-- Invariant of the result-collection loop: starting strictly below `top_k`
with results satisfying the filter obligation, a successful run stays within
`top_k` and every result satisfies the obligation. -/
theorem collectLoop_spec (chunks : List PChunk) (fc : Option (List Char)) (k : Nat) :
    ∀ cands results rs,
      results.length < k →
      (∀ r ∈ results, ResOK fc r) →
      collectLoop chunks fc k cands results = .ok rs →
      rs.length ≤ k ∧ ∀ r ∈ rs, ResOK fc r := by
  intro cands
  induction cands with
  | nil =>
    intro results rs hlen hres h
    simp only [collectLoop] at h
    cases h
    exact ⟨Nat.le_of_lt hlen, hres⟩
  | cons hd tl ih =>
    intro results rs hlen hres h
    obtain ⟨d, idx⟩ := hd
    simp only [collectLoop] at h
    split at h
    · -- idx < len(chunks)
      split at h
      · exact absurd h (by simp)
      · rename_i chunk hpg
        split at h
        · rename_i hkeep
          have hnew : ResOK fc ⟨chunk.text, chunk.metadata, d⟩ := by
            intro s hfc
            subst hfc
            simp only at hkeep
            by_cases hs : s = []
            · subst hs
              simpa [lowerL] using containsL_nil (lowerL (categoryOf chunk.metadata))
            · rw [if_neg hs] at hkeep
              exact hkeep
          have hres2 : ∀ r ∈ results ++ [(⟨chunk.text, chunk.metadata, d⟩ : RRes)], ResOK fc r := by
            intro r hr
            rcases List.mem_append.mp hr with hr | hr
            · exact hres r hr
            · rcases List.mem_singleton.mp hr with rfl
              exact hnew
          split at h
          · rename_i hbreak
            cases h
            refine ⟨?_, hres2⟩
            have : results.length + 1 ≤ k := hlen
            simpa using this
          · rename_i hbreak
            exact ih _ _ (by simp at hbreak ⊢; omega) hres2 h
        · exact ih _ _ hlen hres h
    · exact ih _ _ hlen hres h

/-- C5: `retrieve` returns at most `top_k` results (given the FAISS contract
that a search for `n` candidates returns `n` rows), and when a category filter
string is supplied every returned chunk's category metadata contains the
filter string case-insensitively. -/
theorem retrieve_topk_and_filter (enc : List Char → Vec)
    (srch : List Vec → Vec → Nat → List (ℚ × Int))
    (st : RState) (q : List Char) (k : Nat) (fc : Option (List Char)) (rs : List RRes)
    (hs : ∀ ix v n, (srch ix v n).length = n)
    (h : retrieve enc srch st q k fc = .ok rs) :
    rs.length ≤ k ∧ ∀ r ∈ rs, ∀ s, fc = some s →
      containsL (lowerL s) (lowerL (categoryOf r.metadata)) = true := by
  unfold retrieve at h
  cases hix : st.index with
  | none => rw [hix] at h; exact absurd h (by simp)
  | some ix =>
    rw [hix] at h
    rcases Nat.eq_zero_or_pos k with hk | hk
    · subst hk
      replace h : collectLoop st.chunks fc 0 (srch ix (enc q) (searchK fc 0)) [] =
          Except.ok rs := h
      have h0 : searchK fc 0 = 0 := by unfold searchK; split <;> rfl
      have hc : srch ix (enc q) (searchK fc 0) = [] :=
        List.length_eq_zero.mp ((hs ix (enc q) (searchK fc 0)).trans h0)
      rw [hc] at h
      simp only [collectLoop] at h
      cases h
      exact ⟨Nat.le_refl 0, by simp⟩
    · have := collectLoop_spec st.chunks fc k _ [] rs hk (by simp) h
      exact ⟨this.1, fun r hr s hfc => this.2 r hr s hfc⟩

/-- Witness for `retrieve_topk_and_filter`: one stored chunk of category
`zwrot`, filter `zw`, `top_k = 1`. -/
theorem retrieve_topk_and_filter_witness :
    (∀ ix v n, (srchPad ix v n).length = n) ∧
    retrieve encZero srchPad stA ("Jak zwrócić produkt?").data 1 (some ("zw").data) =
      .ok [⟨chunkA.text, chunkA.metadata, 0⟩] ∧
    ([(⟨chunkA.text, chunkA.metadata, 0⟩ : RRes)].length ≤ 1 ∧
      ∀ r ∈ [(⟨chunkA.text, chunkA.metadata, 0⟩ : RRes)], ∀ s, (some ("zw").data) = some s →
        containsL (lowerL s) (lowerL (categoryOf r.metadata)) = true) := by
  have hs : ∀ ix v n, (srchPad ix v n).length = n := fun ix v n => List.length_replicate n _
  have hret : retrieve encZero srchPad stA ("Jak zwrócić produkt?").data 1 (some ("zw").data) =
      .ok [⟨chunkA.text, chunkA.metadata, 0⟩] := rfl
  exact ⟨hs, hret, retrieve_topk_and_filter encZero srchPad stA ("Jak zwrócić produkt?").data 1
      (some ("zw").data) [⟨chunkA.text, chunkA.metadata, 0⟩] hs hret⟩

/-! ### C9: fallback result count -/

theorem insDesc_length (x : FRes) : ∀ l, (insDesc x l).length = l.length + 1
  | [] => rfl
  | y :: ys => by
    simp only [insDesc]
    split
    · simp [insDesc_length x ys]
    · simp

theorem sortScoreDesc_length : ∀ l, (sortScoreDesc l).length = l.length
  | [] => rfl
  | x :: xs => by
    simp [sortScoreDesc, insDesc_length, sortScoreDesc_length xs]

/-- C9: for every query, every `top_k ≥ 1` and every category filter, the
fallback retriever returns exactly `min top_k 5` results (the static knowledge
base holds 5 entries): the filter only boosts scores and never excludes an
entry, and the result set is never empty. -/
theorem fallback_retrieve_count (q : List Char) (k : Nat) (fc : Option (List Char))
    (hk : 1 ≤ k) :
    (fallback_retrieve q k fc).length = min k 5 ∧ fallback_retrieve q k fc ≠ [] := by
  have hlen : (fallback_retrieve q k fc).length = min k 5 := by
    unfold fallback_retrieve
    rw [List.length_take, sortScoreDesc_length, List.length_map]
    rfl
  refine ⟨hlen, ?_⟩
  intro hnil
  rw [hnil] at hlen
  simp only [List.length_nil] at hlen
  omega

/-- Witness for `fallback_retrieve_count` at `top_k = 3`. -/
theorem fallback_retrieve_count_witness :
    (1 ≤ 3) ∧
    ((fallback_retrieve ("Jakie są koszty dostawy?").data 3 none).length = min 3 5 ∧
      fallback_retrieve ("Jakie są koszty dostawy?").data 3 none ≠ []) :=
  ⟨by decide, fallback_retrieve_count _ 3 none (by decide)⟩

/-! ### C8: fallback scoring -/

/-- Counting the elements of one set inside another is symmetric: the shared
token count does not depend on which side is deduplicated and filtered. -/
theorem filter_mem_comm (A B : List (List Char)) :
    (A.dedup.filter (fun w => decide (w ∈ B))).length =
      (B.dedup.filter (fun w => decide (w ∈ A))).length := by
  have key : ∀ X Y : List (List Char),
      (X.dedup.filter (fun w => decide (w ∈ Y))).length = (X.toFinset ∩ Y.toFinset).card := by
    intro X Y
    rw [← List.toFinset_card_of_nodup ((List.nodup_dedup X).filter _)]
    congr 1
    ext a
    simp [List.mem_filter, List.mem_dedup]
  rw [key, key, Finset.inter_comm]

/-- The code-side score of one knowledge-base entry equals the spec-side
score, provided the entry's category is non-empty (all five are). -/
theorem fallback_score_eq (q : List Char) (fc : Option (List Char)) (doc : FDoc)
    (hcat : doc.category ≠ []) :
    (if truthy fc ∧ fc = some doc.category then
        (((lowerL doc.text |> pyWords).dedup.filter
          (fun w => decide (w ∈ (lowerL q |> pyWords).dedup))).length) + 5
      else
        (((lowerL doc.text |> pyWords).dedup.filter
          (fun w => decide (w ∈ (lowerL q |> pyWords).dedup))).length)) =
    sharedTokenCount q doc.text + (if fc = some doc.category then 5 else 0) := by
  have hov : ((lowerL doc.text |> pyWords).dedup.filter
      (fun w => decide (w ∈ (lowerL q |> pyWords).dedup))).length =
      sharedTokenCount q doc.text := by
    unfold sharedTokenCount
    rw [List.filter_congr (fun w _ => ?_), filter_mem_comm]
    simp [List.mem_dedup]
  rw [hov]
  by_cases hfc : fc = some doc.category
  · have ht : truthy fc = true := by
      subst hfc
      simp [truthy, List.isEmpty_iff, hcat]
    rw [if_pos ⟨ht, hfc⟩, if_pos hfc]
  · rw [if_neg (by tauto), if_neg hfc]
    omega

/-- C8: the fallback retriever implements exactly the spec's scoring (count of
shared whitespace tokens between lowercased query and entry, +5 exactly when
the filter equals the entry category, stable descending sort, first `top_k`);
and on the scenario query "Jakie są koszty dostawy?" with filter `dostawa`,
the top returned entry is the delivery-policy entry. -/
theorem fallback_matches_spec_and_scenario :
    (∀ q k fc, fallback_retrieve q k fc = fallbackRetrieveSpec q k fc) ∧
    (fallback_retrieve ("Jakie są koszty dostawy?").data 5 (some ("dostawa").data)).head?.map
      (fun r => r.source) = some (("Polityka wysyłki").data) := by
  have hcats : ∀ doc ∈ knowledge_base, doc.category ≠ [] := by
    intro doc hdoc
    have hall : knowledge_base.all (fun d => !d.category.isEmpty) = true := by decide
    have := List.all_eq_true.mp hall doc hdoc
    simpa [List.isEmpty_iff] using this
  refine ⟨?_, ?_⟩
  · intro q k fc
    unfold fallback_retrieve fallbackRetrieveSpec
    dsimp only
    congr 1
    congr 1
    refine List.map_congr_left ?_
    intro doc hdoc
    rw [FRes.mk.injEq]
    refine ⟨rfl, rfl, rfl, ?_⟩
    exact fallback_score_eq q fc doc (hcats doc hdoc)
  · decide

/-! ### Chunker groundwork: strip and slice lemmas -/

theorem punct_not_space {c : Char} (h : isPunct c = true) : pyIsSpace c = false := by
  simp only [isPunct, Bool.or_eq_true, decide_eq_true_eq] at h
  rcases h with (rfl | rfl) | rfl <;> decide

theorem mem_of_getLast? {l : List Char} {c : Char} (h : l.getLast? = some c) : c ∈ l := by
  induction l with
  | nil => simp at h
  | cons a t ih =>
    cases t with
    | nil => simp_all
    | cons b u =>
      rw [List.getLast?_cons_cons] at h
      exact List.mem_cons_of_mem a (ih h)

theorem hasNS_of_mem {l : List Char} {c : Char} (hm : c ∈ l) (hc : pyIsSpace c = false) :
    hasNS l = true := by
  unfold hasNS
  rw [List.any_eq_true]
  exact ⟨c, hm, by rw [hc]; rfl⟩

theorem endsPunct_hasNS {s : List Char} (h : endsPunct s = true) : hasNS s = true := by
  unfold endsPunct at h
  cases hl : s.getLast? with
  | none => rw [hl] at h; simp at h
  | some c =>
    rw [hl] at h
    exact hasNS_of_mem (mem_of_getLast? hl) (punct_not_space h)

theorem hasNS_append (a b : List Char) : hasNS (a ++ b) = (hasNS a || hasNS b) :=
  List.any_append

theorem hasNS_reverse (l : List Char) : hasNS l.reverse = hasNS l := by
  unfold hasNS
  exact List.any_reverse

theorem hasNS_cons_space {c : Char} {t : List Char} (hc : pyIsSpace c = true)
    (h : hasNS (c :: t) = true) : hasNS t = true := by
  unfold hasNS at h ⊢
  rw [List.any_cons] at h
  simpa [hc] using h

theorem hasNS_eq_false_of_all_space {a : List Char} (h : a.all pyIsSpace = true) :
    hasNS a = false := by
  unfold hasNS
  rw [Bool.eq_false_iff]
  intro hcon
  rw [List.any_eq_true] at hcon
  obtain ⟨c, hc, hns⟩ := hcon
  have h2 := List.all_eq_true.mp h c hc
  simp only [Bool.not_eq_true'] at hns
  rw [h2] at hns
  cases hns

theorem dropWhile_length_le (p : Char → Bool) : ∀ l : List Char,
    (l.dropWhile p).length ≤ l.length
  | [] => Nat.le_refl 0
  | c :: t => by
    rw [List.dropWhile_cons]
    split
    · exact Nat.le_succ_of_le (dropWhile_length_le p t)
    · exact Nat.le_refl _

theorem lstripL_cons (c : Char) (l : List Char) :
    lstripL (c :: l) = if pyIsSpace c then lstripL l else c :: l := by
  simp [lstripL, List.dropWhile_cons]

theorem lstripL_cons_nonspace {c : Char} {t : List Char} (hc : pyIsSpace c = false) :
    lstripL (c :: t) = c :: t := by
  rw [lstripL_cons, hc]
  simp

theorem lstripL_append_of_hasNS : ∀ {a : List Char}, hasNS a = true → ∀ b : List Char,
    lstripL (a ++ b) = lstripL a ++ b
  | [], h, _ => by simp [hasNS] at h
  | c :: t, h, b => by
    by_cases hc : pyIsSpace c = true
    · have ht : hasNS t = true := hasNS_cons_space hc h
      rw [List.cons_append, lstripL_cons, if_pos hc, lstripL_cons, if_pos hc]
      exact lstripL_append_of_hasNS ht b
    · rw [Bool.not_eq_true] at hc
      rw [List.cons_append, lstripL_cons, lstripL_cons, hc]
      simp

theorem lstripL_append_all_space : ∀ {a : List Char}, a.all pyIsSpace = true →
    ∀ b : List Char, lstripL (a ++ b) = lstripL b
  | [], _, _ => rfl
  | c :: t, h, b => by
    have hc : pyIsSpace c = true := List.all_eq_true.mp h c (by simp)
    have ht : t.all pyIsSpace = true := by
      rw [List.all_eq_true] at h ⊢
      exact fun x hx => h x (List.mem_cons_of_mem c hx)
    rw [List.cons_append, lstripL_cons, if_pos hc]
    exact lstripL_append_all_space ht b

theorem lstripL_ne_of_hasNS : ∀ {l : List Char}, hasNS l = true → lstripL l ≠ []
  | [], h => by simp [hasNS] at h
  | c :: t, h => by
    by_cases hc : pyIsSpace c = true
    · rw [lstripL_cons, if_pos hc]
      exact lstripL_ne_of_hasNS (hasNS_cons_space hc h)
    · rw [Bool.not_eq_true] at hc
      rw [lstripL_cons, hc]
      simp

theorem head_lstripL : ∀ {l : List Char} {c : Char} {t : List Char},
    lstripL l = c :: t → pyIsSpace c = false
  | [], c, t, h => by simp [lstripL] at h
  | a :: u, c, t, h => by
    by_cases ha : pyIsSpace a = true
    · rw [lstripL_cons, if_pos ha] at h
      exact head_lstripL h
    · rw [Bool.not_eq_true] at ha
      rw [lstripL_cons, ha] at h
      simp at h
      rw [← h.1]
      exact ha

theorem hasNS_of_lstripL_ne : ∀ {l : List Char}, lstripL l ≠ [] → hasNS l = true
  | [], h => absurd rfl h
  | a :: u, h => by
    by_cases ha : pyIsSpace a = true
    · rw [lstripL_cons, if_pos ha] at h
      have ht := hasNS_of_lstripL_ne h
      unfold hasNS at ht ⊢
      rw [List.any_cons, ht]
      simp
    · rw [Bool.not_eq_true] at ha
      exact hasNS_of_mem (List.mem_cons_self a u) ha

theorem getLast?_lstripL {l : List Char} (h : lstripL l ≠ []) :
    (lstripL l).getLast? = l.getLast? := by
  unfold lstripL at h ⊢
  conv_rhs => rw [← List.takeWhile_append_dropWhile (p := pyIsSpace) (l := l)]
  rw [List.getLast?_append_of_ne_nil _ h]

theorem rstripL_append_of_hasNS {b : List Char} (h : hasNS b = true) (a : List Char) :
    rstripL (a ++ b) = a ++ rstripL b := by
  unfold rstripL
  rw [List.reverse_append]
  have h2 : (b.reverse ++ a.reverse).dropWhile pyIsSpace =
      b.reverse.dropWhile pyIsSpace ++ a.reverse := by
    have := lstripL_append_of_hasNS (a := b.reverse)
      (by rw [hasNS_reverse]; exact h) a.reverse
    simpa [lstripL] using this
  rw [h2, List.reverse_append, List.reverse_reverse]

theorem rstripL_append_all_space {b : List Char} (h : b.all pyIsSpace = true)
    (a : List Char) : rstripL (a ++ b) = rstripL a := by
  unfold rstripL
  rw [List.reverse_append]
  have h2 : (b.reverse ++ a.reverse).dropWhile pyIsSpace =
      a.reverse.dropWhile pyIsSpace := by
    have := lstripL_append_all_space (a := b.reverse)
      (by rw [List.all_reverse]; exact h) a.reverse
    simpa [lstripL] using this
  rw [h2]

theorem rstripL_eq_self {l : List Char} {c : Char} (h : l.getLast? = some c)
    (hc : pyIsSpace c = false) : rstripL l = l := by
  unfold rstripL
  have hrev : l.reverse.head? = some c := by rw [List.head?_reverse l, h]
  cases hr : l.reverse with
  | nil => rw [hr] at hrev; simp at hrev
  | cons x xs =>
    rw [hr] at hrev
    injection hrev with hx
    subst hx
    rw [List.dropWhile_cons, hc]
    simp only [Bool.false_eq_true, if_false]
    rw [← hr, List.reverse_reverse]

theorem rstripL_length_lt {l : List Char} (h : endsSpace l = true) :
    (rstripL l).length < l.length := by
  unfold endsSpace at h
  cases hl : l.getLast? with
  | none => rw [hl] at h; simp at h
  | some c =>
    rw [hl] at h
    have hrev : l.reverse.head? = some c := by rw [List.head?_reverse l, hl]
    cases hr : l.reverse with
    | nil => rw [hr] at hrev; simp at hrev
    | cons x xs =>
      rw [hr] at hrev
      injection hrev with hx
      subst hx
      unfold rstripL
      rw [hr, List.dropWhile_cons, if_pos h, List.length_reverse]
      have h1 : (xs.dropWhile pyIsSpace).length ≤ xs.length := dropWhile_length_le _ xs
      have h2 : l.reverse.length = l.length := List.length_reverse l
      rw [hr] at h2
      simp only [List.length_cons] at h2
      omega

theorem rstripL_ne_of_hasNS {l : List Char} (h : hasNS l = true) : rstripL l ≠ [] := by
  unfold rstripL
  intro hcon
  have h1 : l.reverse.dropWhile pyIsSpace = [] := by
    have := congrArg List.reverse hcon
    simpa using this
  have h2 : lstripL l.reverse ≠ [] :=
    lstripL_ne_of_hasNS (by rw [hasNS_reverse]; exact h)
  exact h2 (by simpa [lstripL] using h1)

theorem stripL_ne_of_hasNS {l : List Char} (h : hasNS l = true) : stripL l ≠ [] := by
  unfold stripL
  apply rstripL_ne_of_hasNS
  cases hls : lstripL l with
  | nil => exact absurd hls (lstripL_ne_of_hasNS h)
  | cons c t =>
    exact hasNS_of_mem (List.mem_cons_self c t) (head_lstripL hls)

theorem stripL_length_lt {l : List Char} (hes : endsSpace l = true)
    (hns : hasNS l = true) : (stripL l).length < l.length := by
  unfold stripL
  have hne : lstripL l ≠ [] := lstripL_ne_of_hasNS hns
  have hes2 : endsSpace (lstripL l) = true := by
    unfold endsSpace at hes ⊢
    rw [getLast?_lstripL hne]
    exact hes
  have h1 : (rstripL (lstripL l)).length < (lstripL l).length := rstripL_length_lt hes2
  have h2 : (lstripL l).length ≤ l.length := dropWhile_length_le _ l
  omega

theorem stripL_core {L : List Char} {c : Char} {t : List Char}
    (hL : L.all pyIsSpace = true) (hc : pyIsSpace c = false)
    (hp : endsPunct (c :: t) = true) :
    stripL (L ++ (c :: t) ++ [' ']) = c :: t := by
  unfold endsPunct at hp
  cases hgl : (c :: t).getLast? with
  | none => simp at hgl
  | some p =>
    rw [hgl] at hp
    unfold stripL
    rw [List.append_assoc, lstripL_append_all_space hL]
    have h1 : (c :: t) ++ [' '] = c :: (t ++ [' ']) := rfl
    rw [h1, lstripL_cons_nonspace hc, ← h1,
      rstripL_append_all_space (b := [' ']) (by decide)]
    exact rstripL_eq_self hgl (punct_not_space hp)

theorem stripL_word {w : List Char} (hw : w ≠ [])
    (ha : w.all (fun c => !pyIsSpace c) = true) : stripL (w ++ [' ']) = w := by
  cases w with
  | nil => exact absurd rfl hw
  | cons c t =>
    have hc : pyIsSpace c = false := by
      have := List.all_eq_true.mp ha c (by simp)
      simpa using this
    unfold stripL
    have h1 : (c :: t) ++ [' '] = c :: (t ++ [' ']) := rfl
    rw [h1, lstripL_cons_nonspace hc, ← h1,
      rstripL_append_all_space (b := [' ']) (by decide)]
    cases hgl : (c :: t).getLast? with
    | none => simp at hgl
    | some x =>
      have hx : pyIsSpace x = false := by
        have := List.all_eq_true.mp ha x (mem_of_getLast? hgl)
        simpa using this
      exact rstripL_eq_self hgl hx

theorem takeLast_length (n : Nat) (l : List Char) :
    (takeLast n l).length = min n l.length := by
  unfold takeLast
  rw [List.length_drop]
  omega

theorem takeLast_all {p : Char → Bool} {l : List Char} (h : l.all p = true) (n : Nat) :
    (takeLast n l).all p = true := by
  rw [List.all_eq_true] at h ⊢
  exact fun x hx => h x ((List.drop_sublist _ l).subset hx)

theorem takeLast_of_le {n : Nat} {l : List Char} (h : l.length ≤ n) : takeLast n l = l := by
  unfold takeLast
  rw [Nat.sub_eq_zero_of_le h, List.drop_zero]

theorem takeLast_append_right {n : Nat} {a b : List Char} (h : n ≤ b.length) :
    takeLast n (a ++ b) = takeLast n b := by
  unfold takeLast
  rw [List.length_append,
    show a.length + b.length - n = a.length + (b.length - n) by omega,
    List.drop_append]

theorem takeLast_append_left {n : Nat} {a b : List Char} (h : b.length ≤ n) :
    takeLast n (a ++ b) = takeLast (n - b.length) a ++ b := by
  unfold takeLast
  rw [List.length_append]
  have hk : a.length + b.length - n ≤ a.length := by omega
  rw [List.drop_append_of_le_length hk]
  congr 2
  omega

theorem takeLast_concat (n : Nat) (l : List Char) (x : Char) :
    takeLast (n + 1) (l ++ [x]) = takeLast n l ++ [x] := by
  have := takeLast_append_left (n := n + 1) (a := l) (b := [x]) (by simp)
  simpa using this

theorem getLast?_takeLast {n : Nat} {l : List Char} (h : takeLast n l ≠ []) :
    (takeLast n l).getLast? = l.getLast? := by
  unfold takeLast at h ⊢
  conv_rhs => rw [← List.take_append_drop (l.length - n) l]
  rw [List.getLast?_append_of_ne_nil _ h]

theorem startsWithL_empty (l : List Char) : startsWithL [] l = true := by
  cases l <;> rfl

theorem startsWithL_self_append : ∀ p t : List Char, startsWithL p (p ++ t) = true
  | [], t => startsWithL_empty t
  | a :: as, t => by
    simp [startsWithL, startsWithL_self_append as t]

theorem startsWithL_refl (p : List Char) : startsWithL p p = true := by
  have := startsWithL_self_append p []
  simpa using this

theorem startsWithL_append_right : ∀ {p a : List Char}, startsWithL p a = true →
    ∀ b : List Char, startsWithL p (a ++ b) = true
  | [], _, _, _ => startsWithL_empty _
  | c :: cs, [], h, _ => by simp [startsWithL] at h
  | c :: cs, a :: as, h, b => by
    simp only [startsWithL, Bool.and_eq_true, decide_eq_true_eq] at h
    simp only [List.cons_append, startsWithL, Bool.and_eq_true, decide_eq_true_eq]
    exact ⟨h.1, startsWithL_append_right h.2 b⟩

/-! ### Sentence and word splitting facts -/

theorem sentGo_ne_nil : ∀ (l acc : List Char) (skp : Bool), sentGo l acc skp ≠ []
  | [], _, _ => by simp [sentGo]
  | c :: rest, acc, skp => by
    simp only [sentGo]
    split
    · split
      · exact sentGo_ne_nil rest acc true
      · exact sentGo_ne_nil rest [c] false
    · split
      · simp
      · exact sentGo_ne_nil rest (c :: acc) false

/-- Every sentence except the last ends with sentence punctuation: a split
only happens right after a `[.!?]` character. -/
theorem sentGo_dropLast_punct : ∀ (l acc : List Char) (skp : Bool),
    ∀ s ∈ (sentGo l acc skp).dropLast, endsPunct s = true
  | [], _, _ => by simp [sentGo]
  | c :: rest, acc, skp => by
    simp only [sentGo]
    split
    · split
      · exact sentGo_dropLast_punct rest acc true
      · exact sentGo_dropLast_punct rest [c] false
    · split
      · rename_i hcond
        intro s hs
        rw [List.dropLast_cons_of_ne_nil (sentGo_ne_nil rest [] true)] at hs
        rcases List.mem_cons.mp hs with rfl | hs
        · rw [Bool.and_eq_true] at hcond
          unfold headPunct at hcond
          unfold endsPunct
          rw [List.getLast?_reverse]
          cases acc with
          | nil => simp at hcond
          | cons p ps =>
            rw [List.head?_cons]
            exact hcond.2
        · exact sentGo_dropLast_punct rest [] true s hs
      · exact sentGo_dropLast_punct rest (c :: acc) false

/-- The first sentence produced in scanning mode extends the accumulator. -/
theorem sentGo_head_acc : ∀ (l acc s : List Char),
    (sentGo l acc false).head? = some s → ∃ t, s = acc.reverse ++ t
  | [], acc, s => by
    simp only [sentGo, List.head?_cons]
    rintro h
    injection h with h
    exact ⟨[], by rw [← h]; simp⟩
  | c :: rest, acc, s => by
    simp only [sentGo]
    rw [if_neg Bool.false_ne_true]
    by_cases hcond : (pyIsSpace c && headPunct acc) = true
    · rw [if_pos hcond, List.head?_cons]
      intro h
      injection h with h
      exact ⟨[], by rw [← h]; simp⟩
    · rw [if_neg hcond]
      intro h
      obtain ⟨t, ht⟩ := sentGo_head_acc rest (c :: acc) s h
      refine ⟨c :: t, ?_⟩
      rw [ht]
      simp

/-- Every sentence except possibly the first starts with a non-whitespace
character (the separator consumes the maximal whitespace run); in skip mode
every produced sentence does. -/
theorem sentGo_headOK : ∀ (l acc : List Char) (skp : Bool), (skp = true → acc = []) →
    (∀ s ∈ (sentGo l acc skp).tail, headOK s = true) ∧
    (skp = true → ∀ s ∈ sentGo l acc skp, headOK s = true)
  | [], acc, skp, hacc => by
    constructor
    · simp [sentGo]
    · intro hskp
      rw [hacc hskp]
      simp [sentGo, headOK]
  | c :: rest, acc, true, hacc => by
    rw [hacc rfl]
    simp only [sentGo, if_pos rfl]
    by_cases hc : pyIsSpace c = true
    · rw [if_pos hc]
      have IH := sentGo_headOK rest [] true (fun _ => rfl)
      exact ⟨IH.1, fun _ => IH.2 rfl⟩
    · rw [if_neg hc]
      have IH := sentGo_headOK rest [c] false (fun h => nomatch h)
      refine ⟨IH.1, fun _ => ?_⟩
      intro s hs
      cases hl : sentGo rest [c] false with
      | nil => exact absurd hl (sentGo_ne_nil rest [c] false)
      | cons hd tl =>
        rw [hl] at hs
        rcases List.mem_cons.mp hs with rfl | hs
        · obtain ⟨t, ht⟩ := sentGo_head_acc rest [c] s (by rw [hl]; rfl)
          rw [ht]
          unfold headOK
          simp only [List.reverse_cons, List.reverse_nil, List.nil_append,
            List.cons_append, List.head?_cons]
          rw [Bool.not_eq_true] at hc
          rw [hc]
          rfl
        · have := IH.1
          rw [hl] at this
          exact this s hs
  | c :: rest, acc, false, _ => by
    simp only [sentGo]
    rw [if_neg Bool.false_ne_true]
    by_cases hcond : (pyIsSpace c && headPunct acc) = true
    · rw [if_pos hcond]
      have IH := sentGo_headOK rest [] true (fun _ => rfl)
      refine ⟨?_, fun h => nomatch h⟩
      simp only [List.tail_cons]
      exact IH.2 rfl
    · rw [if_neg hcond]
      exact sentGo_headOK rest (c :: acc) false (fun h => nomatch h)

theorem splitSentences_dropLast_punct (text : List Char) :
    ∀ s ∈ (splitSentences text).dropLast, endsPunct s = true :=
  sentGo_dropLast_punct text [] false

theorem splitSentences_tail_headOK (text : List Char) :
    ∀ s ∈ (splitSentences text).tail, headOK s = true :=
  (sentGo_headOK text [] false (fun h => nomatch h)).1

/-- `str.split()` only produces non-empty, whitespace-free words. -/
theorem wordsGo_ok : ∀ (l cur : List Char), cur.all (fun c => !pyIsSpace c) = true →
    ∀ w ∈ wordsGo l cur, w ≠ [] ∧ w.all (fun c => !pyIsSpace c) = true
  | [], cur, hcur => by
    intro w hw
    simp only [wordsGo] at hw
    split at hw
    · simp at hw
    · rename_i hne
      rw [List.mem_singleton] at hw
      subst hw
      rw [List.isEmpty_iff] at hne
      refine ⟨?_, ?_⟩
      · rw [ne_eq, List.reverse_eq_nil_iff]
        exact hne
      · rw [List.all_reverse]
        exact hcur
  | c :: rest, cur, hcur => by
    intro w hw
    simp only [wordsGo] at hw
    split at hw
    · split at hw
      · exact wordsGo_ok rest [] rfl w hw
      · rename_i hsp hne
        rw [List.isEmpty_iff] at hne
        rcases List.mem_cons.mp hw with rfl | hw
        · refine ⟨?_, ?_⟩
          · rw [ne_eq, List.reverse_eq_nil_iff]
            exact hne
          · rw [List.all_reverse]
            exact hcur
        · exact wordsGo_ok rest [] rfl w hw
    · rename_i hsp
      refine wordsGo_ok rest (c :: cur) ?_ w hw
      rw [List.all_cons, hcur]
      rw [Bool.not_eq_true] at hsp
      rw [hsp]
      rfl

theorem pyWords_ok (l : List Char) : ∀ w ∈ pyWords l,
    w ≠ [] ∧ w.all (fun c => !pyIsSpace c) = true :=
  wordsGo_ok l [] rfl

/-! ### Chunker invariants: helpers -/

theorem all_space_of_hasNS_false {l : List Char} (h : hasNS l = false) :
    l.all pyIsSpace = true := by
  unfold hasNS at h
  rw [List.all_eq_true]
  intro x hx
  by_contra hc
  rw [Bool.not_eq_true] at hc
  have h2 : l.any (fun c => !pyIsSpace c) = true :=
    List.any_eq_true.mpr ⟨x, hx, by rw [hc]; rfl⟩
  rw [h] at h2
  cases h2

theorem hasNS_of_stripL_ne {l : List Char} (h : stripL l ≠ []) : hasNS l = true := by
  unfold stripL at h
  apply hasNS_of_lstripL_ne
  intro hc
  rw [hc] at h
  exact h rfl

theorem endsSpace_concat_space (l : List Char) : endsSpace (l ++ [' ']) = true := by
  unfold endsSpace
  rw [List.getLast?_concat]
  decide

/-- A sentence ending in punctuation splits into leading whitespace and a core
that starts with a non-whitespace character and ends with the punctuation. -/
theorem sdecomp_of_sentence {s : List Char} (hp : endsPunct s = true) :
    ∃ L c t, s = L ++ (c :: t) ∧ L.all pyIsSpace = true ∧ pyIsSpace c = false ∧
      endsPunct (c :: t) = true := by
  have hns : hasNS s = true := endsPunct_hasNS hp
  have hne : lstripL s ≠ [] := lstripL_ne_of_hasNS hns
  cases hls : lstripL s with
  | nil => exact absurd hls hne
  | cons c t =>
    refine ⟨s.takeWhile pyIsSpace, c, t, ?_, ?_, head_lstripL hls, ?_⟩
    · rw [← hls]
      exact (List.takeWhile_append_dropWhile (p := pyIsSpace) (l := s)).symm
    · rw [List.all_eq_true]
      exact fun x hx => List.mem_takeWhile_imp hx
    · unfold endsPunct at hp ⊢
      rw [← hls, getLast?_lstripL hne]
      exact hp

/-- A flushed buffer yields a chunk satisfying the amended §8 bound. -/
theorem cur_emit_ok {cfg : ChunkerCfg} {cur : List Char}
    (hlen : cur.length ≤ cfg.chunk_size + cfg.chunk_overlap + 1)
    (hes : endsSpace cur = true) (hns : hasNS cur = true) :
    ChunkP cfg (stripL cur) := by
  refine ⟨stripL_ne_of_hasNS hns, Or.inl ?_⟩
  have := stripL_length_lt hes hns
  omega

/-- A flushed word buffer yields a chunk satisfying the amended §8 bound. -/
theorem temp_emit_ok {cfg : ChunkerCfg} {temp : List Char} (ht : TInvP cfg temp)
    (hne : temp ≠ []) : ChunkP cfg (stripL temp) := by
  rcases ht with rfl | ⟨hes, hns, hcase⟩
  · exact absurd rfl hne
  · refine ⟨stripL_ne_of_hasNS hns, ?_⟩
    rcases hcase with hlen | ⟨w, rfl, hw, ha⟩
    · left
      have := stripL_length_lt hes hns
      omega
    · right
      rw [stripL_word hw ha]
      exact ha

theorem pairsOK_nil (cfg : ChunkerCfg) : PairsOK cfg [] := by
  intro i c c' h1 _ _
  simp at h1

theorem pairsOK_append_emit {cfg : ChunkerCfg} {acc : List TChunk}
    (h : PairsOK cfg acc) (x : TChunk)
    (hx : x.seeded = true → ∃ cl, acc.getLast? = some cl ∧
      startsWithL (seedOf cfg cl) (x.text ++ [' ']) = true) :
    PairsOK cfg (acc ++ [x]) := by
  intro i c c' h1 h2 hsd
  have hlt : i + 1 < acc.length + 1 := by
    have := (List.get?_eq_some.mp h2).1
    simpa using this
  by_cases hi : i + 1 < acc.length
  · rw [List.get?_append (by omega)] at h1
    rw [List.get?_append hi] at h2
    exact h i c c' h1 h2 hsd
  · have hieq : i + 1 = acc.length := by omega
    have hc' : c' = x := by
      rw [hieq, List.get?_concat_length] at h2
      injection h2 with h2
      exact h2.symm
    subst hc'
    obtain ⟨cl, hcl, hpre⟩ := hx hsd
    have hc : c = cl := by
      rw [List.get?_append (by omega)] at h1
      rw [List.getLast?_eq_get?] at hcl
      rw [show acc.length - 1 = i by omega] at hcl
      rw [h1] at hcl
      injection hcl
    subst hc
    exact hpre

theorem pairsOK_append_no_seed {cfg : ChunkerCfg} {acc : List TChunk}
    (h : PairsOK cfg acc) (x : TChunk) (hx : x.seeded = false) :
    PairsOK cfg (acc ++ [x]) := by
  apply pairsOK_append_emit h
  intro hsd
  rw [hx] at hsd
  cases hsd

/-- Flushing the sentence buffer preserves the adjacency property: when the
buffer was overlap-seeded, the link invariant provides exactly the seed-prefix
fact for the emitted chunk. -/
theorem flush_pairs {cfg : ChunkerCfg} {md : Md} {cur : List Char} {sd : Bool}
    {acc : List TChunk} (hp : PairsOK cfg acc) (hlink : sd = true → LinkP cfg cur acc) :
    PairsOK cfg (acc ++ [⟨stripL cur, md, false, sd⟩]) := by
  apply pairsOK_append_emit hp
  intro hsd
  obtain ⟨_, cl, hcl, _, h2⟩ := hlink hsd
  exact ⟨cl, hcl, h2⟩

theorem endsPunct_exists {s : List Char} (h : endsPunct s = true) :
    ∃ p, s.getLast? = some p ∧ isPunct p = true := by
  unfold endsPunct at h
  cases hg : s.getLast? with
  | none => rw [hg] at h; exact absurd h (by decide)
  | some p => rw [hg] at h; exact ⟨p, rfl, h⟩

theorem ne_nil_of_endsPunct {s : List Char} (h : endsPunct s = true) : s ≠ [] := by
  intro hc
  subst hc
  exact absurd h (by decide)

/-- Invariant of the word-packing loop: all emitted chunks satisfy the amended
bound (and are never overlap-seeded), and the running buffer keeps `TInvP`. -/
theorem wordLoopT_inv (cfg : ChunkerCfg) (md : Md) :
    ∀ (ws : List (List Char)) (temp : List Char) (acc : List TChunk),
      (∀ w ∈ ws, w ≠ [] ∧ w.all (fun c => !pyIsSpace c) = true) →
      TInvP cfg temp →
      (∀ c ∈ acc, ChunkP cfg c.text) →
      PairsOK cfg acc →
      (∀ c ∈ (wordLoopT cfg md ws temp acc).1, ChunkP cfg c.text) ∧
      PairsOK cfg (wordLoopT cfg md ws temp acc).1 ∧
      TInvP cfg (wordLoopT cfg md ws temp acc).2
  | [], temp, acc => by
    intro _ ht ha hp
    exact ⟨ha, hp, ht⟩
  | w :: ws, temp, acc => by
    intro hws ht ha hp
    have hw := hws w (by simp)
    have hwNS : hasNS w = true := by
      cases hwl : w with
      | nil => exact absurd hwl hw.1
      | cons x xs =>
        have hx := List.all_eq_true.mp hw.2 x (by rw [hwl]; simp)
        exact hasNS_of_mem (List.mem_cons_self x xs) (by simpa using hx)
    have hws' : ∀ w' ∈ ws, w' ≠ [] ∧ w'.all (fun c => !pyIsSpace c) = true :=
      fun w' hw' => hws w' (List.mem_cons_of_mem w hw')
    simp only [wordLoopT]
    by_cases hfit : temp.length + w.length + 1 ≤ cfg.chunk_size
    · rw [if_pos hfit]
      apply wordLoopT_inv cfg md ws _ acc hws' ?_ ha hp
      right
      refine ⟨?_, ?_, Or.inl ?_⟩
      · exact endsSpace_concat_space _
      · rw [hasNS_append, hasNS_append, hwNS]
        simp
      · simp only [List.length_append, List.length_cons, List.length_nil]
        omega
    · rw [if_neg hfit]
      by_cases htemp : temp = []
      · rw [if_pos htemp]
        apply wordLoopT_inv cfg md ws _ acc hws' ?_ ha hp
        right
        refine ⟨endsSpace_concat_space _, ?_, Or.inr ⟨w, rfl, hw.1, hw.2⟩⟩
        rw [hasNS_append, hwNS]
        simp
      · rw [if_neg htemp]
        have hchunk : ChunkP cfg (stripL temp) := temp_emit_ok ht htemp
        have ha' : ∀ c ∈ acc ++ [(⟨stripL temp, md, true, false⟩ : TChunk)],
            ChunkP cfg c.text := by
          intro c hc
          rcases List.mem_append.mp hc with hc | hc
          · exact ha c hc
          · rw [List.mem_singleton] at hc
            subst hc
            exact hchunk
        have hp' := pairsOK_append_no_seed hp (⟨stripL temp, md, true, false⟩ : TChunk) rfl
        apply wordLoopT_inv cfg md ws _ _ hws' ?_ ha' hp'
        right
        refine ⟨endsSpace_concat_space _, ?_, Or.inr ⟨w, rfl, hw.1, hw.2⟩⟩
        rw [hasNS_append, hwNS]
        simp

/-- Main invariant of the sentence loop of `chunk_text`: starting from a
well-formed state, every chunk in the final output satisfies the amended §8
bound `ChunkP`, and every adjacent pair satisfies the amended overlap
property `PairsOK`. -/
theorem mainLoopT_inv (cfg : ChunkerCfg) (md : Md) :
    ∀ (ss : List (List Char)) (cur : List Char) (clen : Nat) (sd : Bool)
      (acc : List TChunk),
      (∀ s ∈ ss.dropLast, endsPunct s = true) →
      (∀ s ∈ ss.tail, headOK s = true) →
      clen = cur.length →
      cur.length ≤ cfg.chunk_size + cfg.chunk_overlap + 1 →
      (cur ≠ [] → endsSpace cur = true) →
      (cur ≠ [] → ss ≠ [] → hasNS cur = true) →
      (cur ≠ [] → ∀ s ∈ ss, headOK s = true) →
      (cur ≠ [] → ss ≠ [] → SDecomp cur) →
      (sd = true → LinkP cfg cur acc) →
      (∀ c ∈ acc, ChunkP cfg c.text) →
      PairsOK cfg acc →
      (∀ c ∈ mainLoopT cfg md ss cur clen sd acc, ChunkP cfg c.text) ∧
      PairsOK cfg (mainLoopT cfg md ss cur clen sd acc)
  | [], cur, clen, sd, acc => by
    intro _ _ _ hlen hes _ _ _ hlink ha hp
    simp only [mainLoopT]
    by_cases hstrip : stripL cur = []
    · rw [if_pos hstrip]
      exact ⟨ha, hp⟩
    · rw [if_neg hstrip]
      have hcur : cur ≠ [] := by
        intro hc
        subst hc
        exact hstrip rfl
      have hch : ChunkP cfg (stripL cur) :=
        cur_emit_ok hlen (hes hcur) (hasNS_of_stripL_ne hstrip)
      refine ⟨?_, flush_pairs hp hlink⟩
      intro c hc
      rcases List.mem_append.mp hc with hc | hc
      · exact ha c hc
      · rw [List.mem_singleton] at hc
        subst hc
        exact hch
  | s :: rest, cur, clen, sd, acc => by
    intro hdl htl hclen hlen hes hns hhok hsdec hlink ha hp
    have hsPunct : rest ≠ [] → endsPunct s = true := by
      intro hr
      exact hdl s (by rw [List.dropLast_cons_of_ne_nil hr]; simp)
    have hdl' : ∀ s' ∈ rest.dropLast, endsPunct s' = true := by
      intro s' hs'
      apply hdl
      have hrne : rest ≠ [] := by
        intro hc
        rw [hc] at hs'
        simp at hs'
      rw [List.dropLast_cons_of_ne_nil hrne]
      exact List.mem_cons_of_mem s hs'
    have htlr : ∀ s' ∈ rest, headOK s' = true := by
      intro s' hs'
      exact htl s' (by simpa using hs')
    have htl' : ∀ s' ∈ rest.tail, headOK s' = true :=
      fun s' hs' => htlr s' (List.mem_of_mem_tail hs')
    have hem1 : ∀ c ∈ (if cur = [] then acc
        else acc ++ [(⟨stripL cur, md, false, sd⟩ : TChunk)]), ChunkP cfg c.text := by
      by_cases hcur : cur = []
      · rw [if_pos hcur]
        exact ha
      · rw [if_neg hcur]
        have hch : ChunkP cfg (stripL cur) :=
          cur_emit_ok hlen (hes hcur) (hns hcur (by simp))
        intro c hc
        rcases List.mem_append.mp hc with hc | hc
        · exact ha c hc
        · rw [List.mem_singleton] at hc
          subst hc
          exact hch
    have hem2 : PairsOK cfg (if cur = [] then acc
        else acc ++ [(⟨stripL cur, md, false, sd⟩ : TChunk)]) := by
      by_cases hcur : cur = []
      · rw [if_pos hcur]
        exact hp
      · rw [if_neg hcur]
        exact flush_pairs hp hlink
    simp only [mainLoopT]
    by_cases hlong : cfg.chunk_size < s.length
    · -- word-split branch (lines 50-78)
      rw [if_pos hlong]
      have hword := wordLoopT_inv cfg md (pyWords s) [] _ (pyWords_ok s)
        (Or.inl rfl) hem1 hem2
      by_cases htemp : (wordLoopT cfg md (pyWords s) []
          (if cur = [] then acc else acc ++ [(⟨stripL cur, md, false, sd⟩ : TChunk)])).2 = []
      · rw [if_pos htemp]
        exact mainLoopT_inv cfg md rest [] 0 false _ hdl' htl' rfl (by simp)
          (fun hc => absurd rfl hc) (fun hc _ => absurd rfl hc)
          (fun hc => absurd rfl hc) (fun hc _ => absurd rfl hc)
          (fun h => nomatch h) hword.1 hword.2.1
      · rw [if_neg htemp]
        have hch : ChunkP cfg (stripL (wordLoopT cfg md (pyWords s) []
            (if cur = [] then acc else acc ++ [(⟨stripL cur, md, false, sd⟩ : TChunk)])).2) :=
          temp_emit_ok hword.2.2 htemp
        refine mainLoopT_inv cfg md rest [] 0 false _ hdl' htl' rfl (by simp)
          (fun hc => absurd rfl hc) (fun hc _ => absurd rfl hc)
          (fun hc => absurd rfl hc) (fun hc _ => absurd rfl hc)
          (fun h => nomatch h) ?_ ?_
        · intro c hc
          rcases List.mem_append.mp hc with hc | hc
          · exact hword.1 c hc
          · rw [List.mem_singleton] at hc
            subst hc
            exact hch
        · exact pairsOK_append_no_seed hword.2.1 _ rfl
    · rw [if_neg hlong]
      have hslen : s.length ≤ cfg.chunk_size := Nat.le_of_not_lt hlong
      by_cases hfit : clen + s.length ≤ cfg.chunk_size
      · -- the sentence fits: append to the buffer (lines 81-83)
        rw [if_pos hfit]
        refine mainLoopT_inv cfg md rest (cur ++ s ++ [' ']) _ sd acc hdl' htl'
          ?_ ?_ ?_ ?_ ?_ ?_ ?_ ha hp
        · simp only [List.length_append, List.length_cons, List.length_nil]
          omega
        · simp only [List.length_append, List.length_cons, List.length_nil]
          omega
        · intro _
          exact endsSpace_concat_space _
        · intro _ hr
          have hnss : hasNS s = true := endsPunct_hasNS (hsPunct hr)
          rw [hasNS_append, hasNS_append, hnss]
          simp
        · intro _
          exact htlr
        · intro _ hr
          by_cases hcur : cur = []
          · subst hcur
            obtain ⟨L, c, t, hseq, hL, hc, hpunct⟩ := sdecomp_of_sentence (hsPunct hr)
            refine ⟨L, c, t, ?_, hL, hc, hpunct⟩
            rw [hseq]
            simp
          · obtain ⟨L, c, t, hseq, hL, hc, hpunct⟩ := hsdec hcur (by simp)
            refine ⟨L, c, t ++ [' '] ++ s, ?_, hL, hc, ?_⟩
            · rw [hseq]
              simp [List.append_assoc]
            · have hsp := hsPunct hr
              obtain ⟨p, hgp, hip⟩ := endsPunct_exists hsp
              unfold endsPunct
              have : (c :: (t ++ [' '] ++ s)) = (c :: (t ++ [' '])) ++ s := by simp
              rw [this, List.getLast?_append_of_ne_nil _ (ne_nil_of_endsPunct hsp), hgp]
              exact hip
        · intro hsd
          obtain ⟨hcne, cl, hcl, hl1, hl2⟩ := hlink hsd
          have hnsc : hasNS cur = true := hns hcne (by simp)
          have hls : lstripL (cur ++ s ++ [' ']) = lstripL cur ++ (s ++ [' ']) := by
            rw [List.append_assoc]
            exact lstripL_append_of_hasNS hnsc (s ++ [' '])
          refine ⟨by simp [hcne], cl, hcl, ?_, ?_⟩
          · rw [hls]
            exact startsWithL_append_right hl1 _
          · show startsWithL (seedOf cfg cl)
              (rstripL (lstripL (cur ++ s ++ [' '])) ++ [' ']) = true
            rw [hls]
            by_cases hnss : hasNS s = true
            · have hns2 : hasNS (s ++ [' ']) = true := by
                rw [hasNS_append, hnss]
                simp
              rw [rstripL_append_of_hasNS hns2, List.append_assoc]
              exact startsWithL_append_right hl1 _
            · rw [Bool.not_eq_true] at hnss
              have hall : (s ++ [' ']).all pyIsSpace = true := by
                rw [List.all_append, all_space_of_hasNS_false hnss]
                decide
              rw [rstripL_append_all_space hall]
              exact hl2
      · -- overflow: flush, then seed (lines 84-100)
        rw [if_neg hfit]
        by_cases hseed : 0 < cfg.chunk_overlap ∧ cur ≠ []
        · rw [if_pos hseed]
          obtain ⟨hov, hcne⟩ := hseed
          rw [if_neg hcne]
          rw [if_neg hcne] at hem1 hem2
          obtain ⟨L, c, t, hdecomp, hL, hc, hpunct⟩ := hsdec hcne (by simp)
          have hstrip : stripL cur = c :: t := by
            rw [hdecomp]
            exact stripL_core hL hc hpunct
          -- A: the seed computed from the raw buffer left-strips to the seed
          -- computed from the emitted (stripped) chunk text
          have hA : lstripL (takeLast cfg.chunk_overlap cur) =
              lstripL (takeLast cfg.chunk_overlap ((c :: t) ++ [' '])) := by
            rw [hdecomp]
            by_cases hk : cfg.chunk_overlap ≤ ((c :: t) ++ [' ']).length
            · rw [List.append_assoc, takeLast_append_right hk]
            · have hk' : ((c :: t) ++ [' ']).length ≤ cfg.chunk_overlap := by omega
              rw [List.append_assoc, takeLast_append_left hk', takeLast_of_le hk']
              exact lstripL_append_all_space (takeLast_all hL _) _
          -- B: shape of the seed
          have hB : lstripL (takeLast cfg.chunk_overlap ((c :: t) ++ [' '])) = [] ∨
              ∃ X p, lstripL (takeLast cfg.chunk_overlap ((c :: t) ++ [' '])) = X ++ [' '] ∧
                X.getLast? = some p ∧ pyIsSpace p = false := by
            obtain ⟨k, hk⟩ : ∃ k, cfg.chunk_overlap = k + 1 :=
              ⟨cfg.chunk_overlap - 1, by omega⟩
            rw [hk, takeLast_concat]
            by_cases htc : takeLast k (c :: t) = []
            · left
              rw [htc]
              decide
            · right
              obtain ⟨p, hgp, hip⟩ := endsPunct_exists hpunct
              have hgl : (takeLast k (c :: t)).getLast? = some p := by
                rw [getLast?_takeLast htc]
                exact hgp
              have hpns : pyIsSpace p = false := punct_not_space hip
              have htcNS : hasNS (takeLast k (c :: t)) = true :=
                hasNS_of_mem (mem_of_getLast? hgl) hpns
              have hlne : lstripL (takeLast k (c :: t)) ≠ [] := lstripL_ne_of_hasNS htcNS
              refine ⟨lstripL (takeLast k (c :: t)), p, ?_, ?_, hpns⟩
              · exact lstripL_append_of_hasNS htcNS [' ']
              · rw [getLast?_lstripL hlne]
                exact hgl
          have hlink' : LinkP cfg (takeLast cfg.chunk_overlap cur ++ s ++ [' '])
              (acc ++ [(⟨stripL cur, md, false, sd⟩ : TChunk)]) := by
            have hseedOf : seedOf cfg (⟨stripL cur, md, false, sd⟩ : TChunk) =
                lstripL (takeLast cfg.chunk_overlap ((c :: t) ++ [' '])) := by
              unfold seedOf
              rw [hstrip]
            refine ⟨by simp, ⟨stripL cur, md, false, sd⟩, List.getLast?_concat _, ?_, ?_⟩
            · rw [hseedOf]
              rcases hB with hQ | ⟨X, p, hX, hXl, hXns⟩
              · rw [hQ]
                exact startsWithL_empty _
              · have hovNS : hasNS (takeLast cfg.chunk_overlap cur) = true := by
                  apply hasNS_of_lstripL_ne
                  rw [hA, hX]
                  simp
                rw [List.append_assoc,
                  lstripL_append_of_hasNS hovNS (s ++ [' ']), hA]
                exact startsWithL_append_right (startsWithL_refl _) _
            · rw [hseedOf]
              rcases hB with hQ | ⟨X, p, hX, hXl, hXns⟩
              · rw [hQ]
                exact startsWithL_empty _
              · have hovNS : hasNS (takeLast cfg.chunk_overlap cur) = true := by
                  apply hasNS_of_lstripL_ne
                  rw [hA, hX]
                  simp
                show startsWithL _ (rstripL (lstripL
                  (takeLast cfg.chunk_overlap cur ++ s ++ [' '])) ++ [' ']) = true
                rw [List.append_assoc, lstripL_append_of_hasNS hovNS (s ++ [' ']), hA]
                by_cases hnss : hasNS s = true
                · have hns2 : hasNS (s ++ [' ']) = true := by
                    rw [hasNS_append, hnss]
                    simp
                  rw [rstripL_append_of_hasNS hns2, List.append_assoc]
                  exact startsWithL_append_right (startsWithL_refl _) _
                · rw [Bool.not_eq_true] at hnss
                  have hall : (s ++ [' ']).all pyIsSpace = true := by
                    rw [List.all_append, all_space_of_hasNS_false hnss]
                    decide
                  rw [rstripL_append_all_space hall, hX,
                    rstripL_append_all_space (b := [' ']) (by decide),
                    rstripL_eq_self hXl hXns]
                  exact startsWithL_refl _
          refine mainLoopT_inv cfg md rest (takeLast cfg.chunk_overlap cur ++ s ++ [' '])
            _ true _ hdl' htl' ?_ ?_ ?_ ?_ ?_ ?_ (fun _ => hlink') hem1 hem2
          · simp only [List.length_append, List.length_cons, List.length_nil]
          · have h1 : (takeLast cfg.chunk_overlap cur).length ≤ cfg.chunk_overlap := by
              rw [takeLast_length]
              exact Nat.min_le_left _ _
            simp only [List.length_append, List.length_cons, List.length_nil]
            omega
          · intro _
            exact endsSpace_concat_space _
          · intro _ hr
            have hnss : hasNS s = true := endsPunct_hasNS (hsPunct hr)
            rw [hasNS_append, hasNS_append, hnss]
            simp
          · intro _
            exact htlr
          · intro _ hr
            by_cases hD : lstripL (takeLast cfg.chunk_overlap cur) = []
            · have hovAll : (takeLast cfg.chunk_overlap cur).all pyIsSpace = true := by
                apply all_space_of_hasNS_false
                cases h2 : hasNS (takeLast cfg.chunk_overlap cur) with
                | false => rfl
                | true => exact absurd hD (lstripL_ne_of_hasNS h2)
              have hsp := hsPunct hr
              have hsne : s ≠ [] := ne_nil_of_endsPunct hsp
              obtain ⟨c', t', hsc⟩ : ∃ c' t', s = c' :: t' := by
                cases s with
                | nil => exact absurd rfl hsne
                | cons a b => exact ⟨a, b, rfl⟩
              have hok : headOK s = true := hhok hcne s (by simp)
              rw [hsc] at hok hsp
              unfold headOK at hok
              rw [List.head?_cons] at hok
              refine ⟨takeLast cfg.chunk_overlap cur, c', t', ?_, hovAll,
                by simpa using hok, hsp⟩
              rw [hsc]
            · cases hDc : lstripL (takeLast cfg.chunk_overlap cur) with
              | nil => exact absurd hDc hD
              | cons c0 t0 =>
                have hsp := hsPunct hr
                have hsne : s ≠ [] := ne_nil_of_endsPunct hsp
                obtain ⟨p, hgp, hip⟩ := endsPunct_exists hsp
                refine ⟨(takeLast cfg.chunk_overlap cur).takeWhile pyIsSpace,
                  c0, t0 ++ s, ?_, ?_, head_lstripL hDc, ?_⟩
                · have hsplit : (takeLast cfg.chunk_overlap cur).takeWhile pyIsSpace ++
                      (c0 :: t0) = takeLast cfg.chunk_overlap cur := by
                    rw [← hDc]
                    exact List.takeWhile_append_dropWhile (p := pyIsSpace)
                      (l := takeLast cfg.chunk_overlap cur)
                  calc takeLast cfg.chunk_overlap cur ++ s ++ [' ']
                      = ((takeLast cfg.chunk_overlap cur).takeWhile pyIsSpace ++
                        (c0 :: t0)) ++ s ++ [' '] := by rw [hsplit]
                    _ = (takeLast cfg.chunk_overlap cur).takeWhile pyIsSpace ++
                        (c0 :: (t0 ++ s)) ++ [' '] := by simp [List.append_assoc]
                · rw [List.all_eq_true]
                  exact fun x hx => List.mem_takeWhile_imp hx
                · unfold endsPunct
                  have heq : (c0 :: (t0 ++ s)) = (c0 :: t0) ++ s := by simp
                  rw [heq, List.getLast?_append_of_ne_nil _ hsne, hgp]
                  exact hip
        · rw [if_neg hseed]
          refine mainLoopT_inv cfg md rest (s ++ [' ']) _ false _ hdl' htl'
            ?_ ?_ ?_ ?_ ?_ ?_ (fun h => nomatch h) hem1 hem2
          · simp
          · simp only [List.length_append, List.length_cons, List.length_nil]
            omega
          · intro _
            exact endsSpace_concat_space _
          · intro _ hr
            have hnss : hasNS s = true := endsPunct_hasNS (hsPunct hr)
            rw [hasNS_append, hnss]
            simp
          · intro _
            exact htlr
          · intro _ hr
            obtain ⟨L, c, t, hseq, hL, hc, hpunct⟩ := sdecomp_of_sentence (hsPunct hr)
            refine ⟨L, c, t, ?_, hL, hc, hpunct⟩
            rw [hseq]

/-! ### Erasing the ghost flags recovers `chunk_text` -/

theorem wordLoop_erase (cfg : ChunkerCfg) (md : Md) :
    ∀ (ws : List (List Char)) (temp : List Char) (acc : List TChunk),
      (wordLoopT cfg md ws temp acc).1.map eraseT =
        (wordLoopU cfg md ws temp (acc.map eraseT)).1 ∧
      (wordLoopT cfg md ws temp acc).2 = (wordLoopU cfg md ws temp (acc.map eraseT)).2
  | [], temp, acc => ⟨rfl, rfl⟩
  | w :: ws, temp, acc => by
    simp only [wordLoopT, wordLoopU]
    by_cases hfit : temp.length + w.length + 1 ≤ cfg.chunk_size
    · rw [if_pos hfit, if_pos hfit]
      exact wordLoop_erase cfg md ws _ acc
    · rw [if_neg hfit, if_neg hfit]
      by_cases htemp : temp = []
      · rw [if_pos htemp, if_pos htemp]
        exact wordLoop_erase cfg md ws _ acc
      · rw [if_neg htemp, if_neg htemp]
        have h := wordLoop_erase cfg md ws (w ++ [' '])
          (acc ++ [(⟨stripL temp, md, true, false⟩ : TChunk)])
        rw [List.map_append] at h
        exact h

theorem mainLoop_erase (cfg : ChunkerCfg) (md : Md) :
    ∀ (ss : List (List Char)) (cur : List Char) (clen : Nat) (sd : Bool)
      (acc : List TChunk),
      (mainLoopT cfg md ss cur clen sd acc).map eraseT =
        mainLoopU cfg md ss cur clen (acc.map eraseT)
  | [], cur, clen, sd, acc => by
    simp only [mainLoopT, mainLoopU]
    by_cases h : stripL cur = []
    · rw [if_pos h, if_pos h]
    · rw [if_neg h, if_neg h, List.map_append]
      rfl
  | s :: rest, cur, clen, sd, acc => by
    simp only [mainLoopT, mainLoopU]
    have hacc1 : (if cur = [] then acc
        else acc ++ [(⟨stripL cur, md, false, sd⟩ : TChunk)]).map eraseT =
        (if cur = [] then acc.map eraseT
        else acc.map eraseT ++ [(⟨stripL cur, md⟩ : PChunk)]) := by
      by_cases hcur : cur = []
      · rw [if_pos hcur, if_pos hcur]
      · rw [if_neg hcur, if_neg hcur, List.map_append]
        rfl
    by_cases hlong : cfg.chunk_size < s.length
    · rw [if_pos hlong, if_pos hlong]
      have hw := wordLoop_erase cfg md (pyWords s) []
        (if cur = [] then acc else acc ++ [(⟨stripL cur, md, false, sd⟩ : TChunk)])
      rw [hacc1] at hw
      by_cases hpt : (wordLoopT cfg md (pyWords s) []
          (if cur = [] then acc
            else acc ++ [(⟨stripL cur, md, false, sd⟩ : TChunk)])).2 = []
      · have hpu : (wordLoopU cfg md (pyWords s) []
            (if cur = [] then acc.map eraseT
              else acc.map eraseT ++ [(⟨stripL cur, md⟩ : PChunk)])).2 = [] := by
          rw [← hw.2]
          exact hpt
        rw [if_pos hpt, if_pos hpu, mainLoop_erase cfg md rest [] 0 false _, hw.1]
      · have hpu : ¬ (wordLoopU cfg md (pyWords s) []
            (if cur = [] then acc.map eraseT
              else acc.map eraseT ++ [(⟨stripL cur, md⟩ : PChunk)])).2 = [] := by
          rw [← hw.2]
          exact hpt
        rw [if_neg hpt, if_neg hpu, mainLoop_erase cfg md rest [] 0 false _,
          List.map_append, hw.1, hw.2]
        rfl
    · rw [if_neg hlong, if_neg hlong]
      by_cases hfit : clen + s.length ≤ cfg.chunk_size
      · rw [if_pos hfit, if_pos hfit]
        exact mainLoop_erase cfg md rest _ _ sd acc
      · rw [if_neg hfit, if_neg hfit]
        by_cases hseed : 0 < cfg.chunk_overlap ∧ cur ≠ []
        · rw [if_pos hseed, if_pos hseed,
            mainLoop_erase cfg md rest _ _ true _, hacc1]
        · rw [if_neg hseed, if_neg hseed,
            mainLoop_erase cfg md rest _ _ false _, hacc1]

/-- The instrumented chunker computes exactly the chunks of `chunk_text`;
the ghost provenance flags change nothing. -/
theorem chunkTextT_erase (cfg : ChunkerCfg) (text : List Char) (md : Md) :
    (chunkTextT cfg text md).map eraseT = chunk_text cfg text md :=
  mainLoop_erase cfg md (splitSentences text) [] 0 false []

/-- The invariant instantiated at the top-level chunker call. -/
theorem chunkTextT_inv (cfg : ChunkerCfg) (text : List Char) (md : Md) :
    (∀ c ∈ chunkTextT cfg text md, ChunkP cfg c.text) ∧
      PairsOK cfg (chunkTextT cfg text md) :=
  mainLoopT_inv cfg md (splitSentences text) [] 0 false []
    (splitSentences_dropLast_punct text) (splitSentences_tail_headOK text)
    rfl (by simp) (fun hc => absurd rfl hc) (fun hc _ => absurd rfl hc)
    (fun hc => absurd rfl hc) (fun hc _ => absurd rfl hc)
    (fun h => nomatch h) (by simp) (pairsOK_nil cfg)

/-! ### C3: chunk size bound -/

/-- C3 counterexample: a single whitespace-free word longer than
`chunk_size + chunk_overlap` is emitted whole by the word-splitting path, so
the claimed bound `chunk_size + chunk_overlap` fails (here: an 8-character
word against `chunk_size = 5`, `chunk_overlap = 2`). -/
theorem chunk_text_bound_violated :
    (chunk_text ⟨5, 2⟩ ("abcdefgh").data []).map (fun c => c.text) =
      [("abcdefgh").data] ∧
    ¬ ((("abcdefgh").data).length ≤ 5 + 2) := by
  exact ⟨by decide, by decide⟩

/-- C3 (amended): every chunk emitted by `chunk_text` has non-empty text, and
its text is within `chunk_size + chunk_overlap` characters unless it is a
single whitespace-free word (the word-splitting path emits an indivisible
over-long word whole). -/
theorem chunk_text_bounds (cfg : ChunkerCfg) (text : List Char) (md : Md) :
    ∀ c ∈ chunk_text cfg text md, c.text ≠ [] ∧
      (c.text.length ≤ cfg.chunk_size + cfg.chunk_overlap ∨
        c.text.all (fun ch => !pyIsSpace ch) = true) := by
  intro c hc
  rw [← chunkTextT_erase] at hc
  obtain ⟨tc, htc, rfl⟩ := List.mem_map.mp hc
  exact (chunkTextT_inv cfg text md).1 tc htc

/-- Witness for `chunk_text_bounds` on a concrete chunk. -/
theorem chunk_text_bounds_witness :
    (⟨("ab.").data, []⟩ : PChunk) ∈ chunk_text ⟨5, 2⟩ ("ab.").data [] ∧
    ((("ab.").data ≠ []) ∧
      (((("ab.").data).length ≤ 5 + 2) ∨
        (("ab.").data).all (fun ch => !pyIsSpace ch) = true)) :=
  ⟨by decide, chunk_text_bounds ⟨5, 2⟩ ("ab.").data [] ⟨("ab.").data, []⟩ (by decide)⟩

/-! ### C4: the overlap property -/

/-- C4 counterexample: on a three-sentence input with `chunk_size = 10` and
`chunk_overlap = 3`, no chunk comes from the word-splitting path, yet the
trailing `min 3 |c0|` characters of chunk 0 (`"cd."`) differ from the leading
characters of chunk 1 (`"d. "`): the overlap seed is taken from the raw
buffer before stripping, so it is shifted by the trailing space. -/
theorem chunk_overlap_claim_false :
    ((chunkTextT ⟨10, 3⟩ ("abcd. efgh. ijkl.").data []).map
      (fun c => (c.text, c.wordSplit)) =
      [(("abcd.").data, false), (("d. efgh.").data, false),
        (("h. ijkl.").data, false)]) ∧
    ((chunk_text ⟨10, 3⟩ ("abcd. efgh. ijkl.").data []).map (fun c => c.text) =
      [("abcd.").data, ("d. efgh.").data, ("h. ijkl.").data]) ∧
    ¬ (takeLast (min 3 (("abcd.").data).length) (("abcd.").data) =
        List.take (min 3 (("abcd.").data).length) (("d. efgh.").data)) := by
  exact ⟨by decide, by decide, by decide⟩

/-- C4 (amended): for every adjacent pair of chunks whose second member was
started by the overlap-seeding path, the seed derived from the first chunk —
the trailing `chunk_overlap` characters of its text extended by the buffer
space, left-stripped — is a prefix of the second chunk's text extended by one
space. -/
theorem chunk_overlap_seeded (cfg : ChunkerCfg) (text : List Char) (md : Md)
    (i : Nat) (c c' : TChunk)
    (h1 : (chunkTextT cfg text md).get? i = some c)
    (h2 : (chunkTextT cfg text md).get? (i + 1) = some c')
    (hsd : c'.seeded = true) :
    startsWithL (seedOf cfg c) (c'.text ++ [' ']) = true :=
  (chunkTextT_inv cfg text md).2 i c c' h1 h2 hsd

/-- Witness for `chunk_overlap_seeded` on the counterexample input: the seed
derived from `"abcd."` (namely `"d. "`) is a prefix of `"d. efgh."`. -/
theorem chunk_overlap_seeded_witness :
    ((chunkTextT ⟨10, 3⟩ ("abcd. efgh. ijkl.").data []).get? 0 =
      some ⟨("abcd.").data, [], false, false⟩) ∧
    ((chunkTextT ⟨10, 3⟩ ("abcd. efgh. ijkl.").data []).get? 1 =
      some ⟨("d. efgh.").data, [], false, true⟩) ∧
    startsWithL (seedOf ⟨10, 3⟩ ⟨("abcd.").data, [], false, false⟩)
      (("d. efgh.").data ++ [' ']) = true :=
  ⟨by decide, by decide,
    chunk_overlap_seeded ⟨10, 3⟩ ("abcd. efgh. ijkl.").data [] 0
      ⟨("abcd.").data, [], false, false⟩ ⟨("d. efgh.").data, [], false, true⟩
      (by decide) (by decide) (by decide)⟩

end AISupport
